import Mathlib

/-!
# Verification of `wireguard_netstack.go`

A shallow embedding of `src/app/src/main/go/wireguard_netstack.go`:

* the configuration translator `convertToIpcFormat` (lines 78-140), with the
  functions of Go's `strings` package it calls;
* the session functions `StartWireGuardWithNetstack`, `StopWireGuard` and
  `GetWireGuardStatus` (lines 21-76 and 142-162), as explicit state passing
  over the two package globals and a record of the calls made to the
  external collaborators.

Go strings are modelled as lists of Unicode scalar values (`Str`), i.e. as the
runes of a valid UTF-8 string.  `log.Printf` calls are not modelled.
-/

namespace Netstack

/-- A Go string, as the list of its runes. -/
abbrev Str := List Char

/-! ## The functions of Go's `strings` and `unicode` packages that are used -/

/-- Go `unicode.IsSpace`: the runes `strings.TrimSpace` removes.
`'\t' '\n' '\v' '\f' '\r' ' '`, U+0085, U+00A0, and the other runes with the
Unicode White_Space property. -/
def isSpace (c : Char) : Bool :=
  let n := c.toNat
  (9 ≤ n && n ≤ 13) || n == 32 || n == 0x85 || n == 0xA0 || n == 0x1680 ||
  (0x2000 ≤ n && n ≤ 0x200a) || n == 0x2028 || n == 0x2029 || n == 0x202f ||
  n == 0x205f || n == 0x3000

/-- Remove the trailing elements satisfying `p`. -/
def dropWhileEnd (p : Char → Bool) : Str → Str
  | [] => []
  | c :: cs =>
    match dropWhileEnd p cs with
    | [] => if p c then [] else [c]
    | r :: rs => c :: r :: rs

/-- Go `strings.TrimSpace`. -/
def TrimSpace (s : Str) : Str :=
  dropWhileEnd isSpace (s.dropWhile isSpace)

/-- Go `strings.Trim(s, cutset)`. -/
def Trim (s cutset : Str) : Str :=
  dropWhileEnd (fun c => decide (c ∈ cutset)) (s.dropWhile (fun c => decide (c ∈ cutset)))

/-- Go `strings.HasPrefix`. -/
def HasPrefix (s pre : Str) : Bool := pre.isPrefixOf s

/-- Go `strings.HasSuffix`. -/
def HasSuffix (s suf : Str) : Bool := suf.isSuffixOf s

/-- Go `strings.Contains(s, sep)` for a one-rune `sep`. -/
def Contains (s : Str) (sep : Char) : Bool := s.contains sep

/-- Go `strings.Split(s, sep)` for a one-rune `sep`: always at least one
piece. -/
def Split (sep : Char) : Str → List Str
  | [] => [[]]
  | c :: cs =>
    if c = sep then [] :: Split sep cs
    else
      match Split sep cs with
      | [] => [[c]]
      | p :: ps => (c :: p) :: ps

/-- Go `strings.SplitN(s, sep, 2)` for a one-rune `sep`: the text before the
first `sep` and the text after it, or `s` alone when `sep` does not occur. -/
def SplitN2 (sep : Char) : Str → List Str
  | [] => [[]]
  | c :: cs =>
    if c = sep then [[], cs]
    else
      match SplitN2 sep cs with
      | [p] => [c :: p]
      | p :: ps => (c :: p) :: ps
      | [] => [[c]]

/-- Go `unicode.ToLower` as far as the comparisons of this program can see it:
`A`-`Z` go to `a`-`z`, and the only two runes outside ASCII whose lower case is
an ASCII letter, U+0130 and U+212A (Kelvin sign), go to `i` and `k`.  Every
other rune outside ASCII is left in place (Go maps it to a rune outside ASCII;
the result is only ever compared with ASCII literals and never output). -/
def toLowerRune (c : Char) : Char :=
  if 65 ≤ c.toNat ∧ c.toNat ≤ 90 then Char.ofNat (c.toNat + 32)
  else if c.toNat = 0x130 then 'i'
  else if c.toNat = 0x212A then 'k'
  else c

/-- Go `strings.ToLower`. -/
def ToLower (s : Str) : Str := s.map toLowerRune

/-- Go `strings.Join(elems, sep)`. -/
def Join (elems : List Str) (sep : Str) : Str := sep.intercalate elems

/-! ## `convertToIpcFormat` -/

/-- The three local variables of `convertToIpcFormat`. -/
structure LoopState where
  ipcLines : List Str
  currentSection : Str
  peerStarted : Bool
  deriving DecidableEq, Repr

/-- The body of the inner `for _, ip := range strings.Split(value, ",")` loop
(lines 122-127), folded over the pieces. -/
def appendAllowedIps (ipcLines : List Str) (pieces : List Str) : List Str :=
  pieces.foldl
    (fun acc ip =>
      let ip := TrimSpace ip
      if ip ≠ [] then acc ++ ["allowed_ip=".toList ++ ip] else acc)
    ipcLines

/-- One iteration of the `for _, line := range strings.Split(config, "\n")`
loop (lines 83-137). -/
def loopBody (st : LoopState) (line : Str) : LoopState :=
  let line := TrimSpace line
  if line = [] then st
  else if HasPrefix line "[".toList && HasSuffix line "]".toList then
    { st with currentSection := ToLower (Trim line "[]".toList) }
  else if Contains line '=' then
    match SplitN2 '=' line with
    | [p0, p1] =>
      let key := TrimSpace p0
      let value := TrimSpace p1
      if st.currentSection = "interface".toList then
        if ToLower key = "privatekey".toList then
          { st with ipcLines := st.ipcLines ++ ["private_key=".toList ++ value] }
        else if ToLower key = "listenport".toList then
          { st with ipcLines := st.ipcLines ++ ["listen_port=".toList ++ value] }
        else st
      else if st.currentSection = "peer".toList then
        if ToLower key = "publickey".toList then
          let st1 :=
            if !st.peerStarted then
              { st with ipcLines := st.ipcLines ++ ["replace_peers=true".toList],
                        peerStarted := true }
            else st
          { st1 with ipcLines := st1.ipcLines ++ ["public_key=".toList ++ value] }
        else if ToLower key = "allowedips".toList then
          { st with ipcLines := appendAllowedIps st.ipcLines (Split ',' value) }
        else if ToLower key = "endpoint".toList then
          { st with ipcLines := st.ipcLines ++ ["endpoint=".toList ++ value] }
        else if ToLower key = "persistentkeepalive".toList then
          { st with ipcLines :=
              st.ipcLines ++ ["persistent_keepalive_interval=".toList ++ value] }
        else st
      else st
    | _ => st
  else st

/-- The state of `convertToIpcFormat` at loop entry (the zero values of the
three `var` declarations, lines 79-81). -/
def initState : LoopState := ⟨[], [], false⟩

/-- The loop of `convertToIpcFormat` run over a list of lines from a state. -/
def runLoop (st : LoopState) (lines : List Str) : LoopState :=
  lines.foldl loopBody st

/-- The value of `ipcLines` when the loop of `convertToIpcFormat` ends: the
directive list of the document. -/
def ipcLinesOf (config : Str) : List Str :=
  (runLoop initState (Split '\n' config)).ipcLines

/-- The function `convertToIpcFormat` (lines 78-140). -/
def convertToIpcFormat (config : Str) : Str :=
  Join (ipcLinesOf config) "\n".toList

/-- The example document of the specification. -/
def exampleDoc : Str :=
  ("[Interface]\nPrivateKey = AAA\nListenPort = 51820\n[Peer]\nPublicKey = BBB\n" ++
   "AllowedIPs = 0.0.0.0/0, ::/0\nEndpoint = 1.2.3.4:51820\nPersistentKeepalive = 25").toList

/-! ## The document as the specification describes it

The notions of the specification's sections 3 and 4.1 (header line, section in
force, key and value of a line, the table of recognized keys), defined on the
lines of the document and without reference to the loop state. -/

/-- The directive `replace_peers=true`. -/
def replacePeers : Str := "replace_peers=true".toList

/-- The prefix `public_key=` of a public-key directive. -/
def publicKeyPrefix : Str := "public_key=".toList

/-- A line is a section header when, trimmed, it starts with `[` and ends with
`]`. -/
def isHeaderLine (raw : Str) : Bool :=
  HasPrefix (TrimSpace raw) "[".toList && HasSuffix (TrimSpace raw) "]".toList

/-- The section name a header line sets: brackets stripped, lower-cased. -/
def headerName (raw : Str) : Str :=
  ToLower (Trim (TrimSpace raw) "[]".toList)

/-- The section in force after the lines `ls`: the name set by the last header
line among them, the empty name when there is none. -/
def sectionAfter (ls : List Str) : Str :=
  match (ls.filter isHeaderLine).getLast? with
  | none => []
  | some h => headerName h

/-- The key of a line: the text before its first `=`, trimmed and lower-cased;
`none` for a line without `=`. -/
def keyOfLine (raw : Str) : Option Str :=
  if Contains (TrimSpace raw) '=' then
    some (ToLower (TrimSpace ((TrimSpace raw).takeWhile (fun c => c != '='))))
  else none

/-- The value of a line: the text after its first `=`, trimmed. -/
def valueOfLine (raw : Str) : Str :=
  TrimSpace (((TrimSpace raw).dropWhile (fun c => c != '=')).drop 1)

/-- The six recognized (section, key) pairs of the table in section 4.1. -/
def recognizedPair (sec key : Str) : Bool :=
  (sec == "interface".toList && (key == "privatekey".toList || key == "listenport".toList)) ||
  (sec == "peer".toList &&
    (key == "publickey".toList || key == "allowedips".toList ||
     key == "endpoint".toList || key == "persistentkeepalive".toList))

/-- Line `i` of `ls` is a `publickey` line inside a `peer` section. -/
def peerPublicKeyAt (ls : List Str) (i : Nat) : Bool :=
  decide (i < ls.length) && sectionAfter (ls.take i) == "peer".toList &&
    keyOfLine (ls.getD i []) == some "publickey".toList

/-- Some line of `ls` is a `publickey` line inside a `peer` section. -/
def hasPeerPublicKey (ls : List Str) : Bool :=
  (List.range ls.length).any (peerPublicKeyAt ls)

/-- Line `i` of `ls` is a line the table does not recognize: not a header, and
either without `=` or with a (section in force, key) pair outside the six
recognized ones. -/
def unrecognizedAt (ls : List Str) (i : Nat) : Bool :=
  !isHeaderLine (ls.getD i []) &&
    match keyOfLine (ls.getD i []) with
    | none => true
    | some k => !recognizedPair (sectionAfter (ls.take i)) k

/-- The `allowed_ip=` directives of a value: one per comma-separated, trimmed,
non-empty piece. -/
def allowedIpDirectives (value : Str) : List Str :=
  (((Split ',' value).map TrimSpace).filter (fun ip => ip ≠ [])).map
    (fun ip => "allowed_ip=".toList ++ ip)

/-- The directives the table of section 4.1 gives for a key and value in
section `sec`, `started` telling whether `replace_peers=true` was already
emitted. -/
def tableDirectives (sec : Str) (started : Bool) (key value : Str) : List Str :=
  if sec = "interface".toList then
    if key = "privatekey".toList then ["private_key=".toList ++ value]
    else if key = "listenport".toList then ["listen_port=".toList ++ value]
    else []
  else if sec = "peer".toList then
    if key = "publickey".toList then
      (if started then [] else [replacePeers]) ++ [publicKeyPrefix ++ value]
    else if key = "allowedips".toList then allowedIpDirectives value
    else if key = "endpoint".toList then ["endpoint=".toList ++ value]
    else if key = "persistentkeepalive".toList then
      ["persistent_keepalive_interval=".toList ++ value]
    else []
  else []

/-- The directives of one line: none for a header or a line without `=`, the
table's otherwise. -/
def lineDirectives (sec : Str) (started : Bool) (raw : Str) : List Str :=
  if isHeaderLine raw then []
  else
    match keyOfLine raw with
    | none => []
    | some k => tableDirectives sec started k (valueOfLine raw)

/-- The directives of the lines `ls`, line by line in source order, each line
read in the section in force before it. -/
def directivesOfLines (ls : List Str) : List Str :=
  (List.range ls.length).flatMap
    (fun i => lineDirectives (sectionAfter (ls.take i)) (hasPeerPublicKey (ls.take i))
      (ls.getD i []))

/-- A directive that is neither `replace_peers=true` nor a `public_key=` one. -/
def plainDirective (d : Str) : Prop :=
  d ≠ replacePeers ∧ HasPrefix d publicKeyPrefix = false

/-- The shape of a directive list with respect to `replace_peers=true`: before
it is emitted every directive is plain; once it is emitted the list is plain
directives, then `replace_peers=true`, then a `public_key=` directive, then
directives other than `replace_peers=true`. -/
def rpShape (ds : List Str) (started : Bool) : Prop :=
  (started = false → ∀ d ∈ ds, plainDirective d) ∧
  (started = true → ∃ pre v post, ds = pre ++ replacePeers :: (publicKeyPrefix ++ v) :: post ∧
    (∀ d ∈ pre, plainDirective d) ∧ ∀ d ∈ post, d ≠ replacePeers)

/-- The directive sequence a control-protocol text carries: its lines, none for
the empty text. -/
def outputDirectives (out : Str) : List Str :=
  if out = [] then [] else Split '\n' out

/-- The names, with their `=`, a directive other than `replace_peers=true`
starts with. -/
def directivePrefixes : List Str :=
  ["private_key=".toList, "listen_port=".toList, "public_key=".toList,
   "allowed_ip=".toList, "endpoint=".toList, "persistent_keepalive_interval=".toList]

/-! ## The session functions -/

/-- A call to one of the external collaborators (the `netstack` and `device`
packages), with the handles and texts passed.  Handles are numbered in order
of creation. -/
inductive Call where
  /-- `netstack.CreateNetTUN(localAddresses, dnsServers, mtu)` -/
  | CreateNetTUN (localAddrs dnsAddrs : List Str) (mtu : Int)
  /-- `device.NewDevice(tunDev, conn.NewDefaultBind(), logger)` on interface
  `tun`, returning engine `dev` -/
  | NewDevice (tun dev : Nat)
  /-- `dev.IpcSet(cfg)` -/
  | IpcSet (dev : Nat) (cfg : Str)
  /-- `dev.Up()` -/
  | Up (dev : Nat)
  /-- `dev.Close()` -/
  | Close (dev : Nat)
  /-- `dev.IpcGet()` -/
  | IpcGet (dev : Nat)
  deriving DecidableEq, Repr

/-- The behaviour of the external collaborators: the `error` each fallible
call returns (`none` for `nil`, `some msg` for an error with message `msg`),
as a function of the calls made before it and of its arguments. -/
structure Collab where
  createNetTUN : List Call → Option Str
  ipcSet : List Call → Nat → Str → Option Str
  up : List Call → Nat → Option Str
  ipcGet : List Call → Nat → Except Str Str

/-- The package state: the two globals (lines 15-18, `none` for `nil`), the
calls made to the collaborators so far (oldest first), and the numbers the next
interface and the next engine will get. -/
structure World where
  wgDevice : Option Nat
  tunDevice : Option Nat
  calls : List Call
  nextTun : Nat
  nextDev : Nat
  deriving DecidableEq, Repr

/-- Record a collaborator call. -/
def World.record (w : World) (c : Call) : World :=
  { w with calls := w.calls ++ [c] }

/-- The local addresses passed to `CreateNetTUN` (lines 34-37). -/
def localAddrs : List Str := ["10.8.0.1".toList, "fd15:53b6:dead::1".toList]

/-- The resolver addresses passed to `CreateNetTUN` (lines 38-41). -/
def dnsAddrs : List Str := ["8.8.8.8".toList, "2001:4860:4860::8888".toList]

/-- The function `StartWireGuardWithNetstack` (lines 21-76): the code
returned and the package state after the call. -/
def StartWireGuardWithNetstack (env : Collab) (w : World) (configStr : Str)
    (isExitNode : Int) : Int × World :=
  let _isExit := isExitNode == 1
  if configStr = [] then (-2, w)
  else
    let err := env.createNetTUN w.calls
    let w := w.record (Call.CreateNetTUN localAddrs dnsAddrs 1420)
    match err with
    | some _ => (-1, w)
    | none =>
      let tun := w.nextTun
      let w := { w with nextTun := tun + 1 }
      let w := { w with tunDevice := some tun }
      let dev := w.nextDev
      let w := { w.record (Call.NewDevice tun dev) with nextDev := dev + 1 }
      let w := { w with wgDevice := some dev }
      let ipcConfig := convertToIpcFormat configStr
      let err := env.ipcSet w.calls dev ipcConfig
      let w := w.record (Call.IpcSet dev ipcConfig)
      match err with
      | some _ =>
        let w := w.record (Call.Close dev)
        let w := { w with wgDevice := none }
        (-2, w)
      | none =>
        let err := env.up w.calls dev
        let w := w.record (Call.Up dev)
        match err with
        | some _ =>
          let w := w.record (Call.Close dev)
          let w := { w with wgDevice := none }
          (-3, w)
        | none => (0, w)

/-- The function `StopWireGuard` (lines 143-150). -/
def StopWireGuard (w : World) : World :=
  let w :=
    match w.wgDevice with
    | some dev =>
      let w := w.record (Call.Close dev)
      { w with wgDevice := none }
    | none => w
  { w with tunDevice := none }

/-- The function `GetWireGuardStatus` (lines 153-162): the text returned and
the package state after the call. -/
def GetWireGuardStatus (env : Collab) (w : World) : Str × World :=
  match w.wgDevice with
  | none => ("stopped".toList, w)
  | some dev =>
    let res := env.ipcGet w.calls dev
    let w := w.record (Call.IpcGet dev)
    match res with
    | .error msg => ("error: ".toList ++ msg, w)
    | .ok status => (status, w)

/-- The session state of the specification is `Active` when the engine slot
`wgDevice` is set and `Absent` when it is `nil`. -/
def World.isActive (w : World) : Bool := w.wgDevice.isSome

/-- The number of engines created so far. -/
def World.created (w : World) : Nat :=
  w.calls.countP (fun c => match c with | Call.NewDevice _ _ => true | _ => false)

/-- The number of engine closes so far. -/
def World.closed (w : World) : Nat :=
  w.calls.countP (fun c => match c with | Call.Close _ => true | _ => false)

/-- The initial package state: both globals `nil`, no call made. -/
def World.init : World := ⟨none, none, [], 0, 0⟩

/-- Collaborators that never fail. -/
def okCollab : Collab :=
  ⟨fun _ => none, fun _ _ _ => none, fun _ _ => none, fun _ _ => .ok []⟩

/-- Collaborators whose `IpcSet` always fails. -/
def badSetCollab : Collab :=
  ⟨fun _ => none, fun _ _ _ => some "bad config".toList, fun _ _ => none, fun _ _ => .ok []⟩

/-- Collaborators whose `Up` always fails. -/
def badUpCollab : Collab :=
  ⟨fun _ => none, fun _ _ _ => none, fun _ _ => some "no route".toList, fun _ _ => .ok []⟩

/-- Collaborators whose `CreateNetTUN` always fails. -/
def badTunCollab : Collab :=
  ⟨fun _ => some "no tun".toList, fun _ _ _ => none, fun _ _ => none, fun _ _ => .ok []⟩

/-- A package state with an active session: the state after one successful
`StartWireGuardWithNetstack` from the initial state. -/
def activeWorld : World :=
  (StartWireGuardWithNetstack okCollab World.init "x".toList 0).2

/-- The calls recorded by `w2` after those of `w1`. -/
def World.callsSince (w2 w1 : World) : List Call := w2.calls.drop w1.calls.length

/-- The calls a successful `StartWireGuardWithNetstack` makes from state `w`
with configuration `configStr`, in order. -/
def successCalls (w : World) (configStr : Str) : List Call :=
  [Call.CreateNetTUN localAddrs dnsAddrs 1420,
   Call.NewDevice w.nextTun w.nextDev,
   Call.IpcSet w.nextDev (convertToIpcFormat configStr),
   Call.Up w.nextDev]

/-- The calls made before `IpcSet` in a `StartWireGuardWithNetstack` from `w`. -/
def callsBeforeIpcSet (w : World) : List Call :=
  w.calls ++ [Call.CreateNetTUN localAddrs dnsAddrs 1420, Call.NewDevice w.nextTun w.nextDev]

/-- The calls made before `Up` in a `StartWireGuardWithNetstack` from `w`. -/
def callsBeforeUp (w : World) (configStr : Str) : List Call :=
  callsBeforeIpcSet w ++ [Call.IpcSet w.nextDev (convertToIpcFormat configStr)]


/-- A call of the control surface. -/
inductive Op where
  /-- `StartWireGuardWithNetstack(config, isExitNode)` -/
  | start (config : Str) (isExitNode : Int)
  /-- `StopWireGuard()` -/
  | stop
  /-- `GetWireGuardStatus()` -/
  | status
  deriving DecidableEq, Repr

/-- The package state after a sequence of calls of the control surface. -/
def runOps (env : Collab) (w : World) : List Op → World
  | [] => w
  | Op.start config isExitNode :: ops =>
    runOps env (StartWireGuardWithNetstack env w config isExitNode).2 ops
  | Op.stop :: ops => runOps env (StopWireGuard w) ops
  | Op.status :: ops => runOps env (GetWireGuardStatus env w).2 ops

/-- Collaborators whose `IpcGet` always fails. -/
def badGetCollab : Collab :=
  ⟨fun _ => none, fun _ _ _ => none, fun _ _ => none, fun _ _ => .error "closed".toList⟩

/-- Collaborators whose `IpcGet` reports a fixed status text. -/
def statusCollab : Collab :=
  ⟨fun _ => none, fun _ _ _ => none, fun _ _ => none, fun _ _ => .ok "listen_port=51820\n".toList⟩

/-- The five recognized keys that give one directive each: section, lower-cased
key, and the name of the directive (rows 1, 2, 3, 5 and 6 of the table in
section 4.1). -/
def singleDirectiveTable : List (Str × Str × Str) :=
  [("interface".toList, "privatekey".toList, "private_key".toList),
   ("interface".toList, "listenport".toList, "listen_port".toList),
   ("peer".toList, "publickey".toList, "public_key".toList),
   ("peer".toList, "endpoint".toList, "endpoint".toList),
   ("peer".toList, "persistentkeepalive".toList, "persistent_keepalive_interval".toList)]

/-- The seven directive names of the control protocol (section 6). -/
def directiveNames : List Str :=
  ["private_key".toList, "listen_port".toList, "replace_peers".toList, "public_key".toList,
   "allowed_ip".toList, "endpoint".toList, "persistent_keepalive_interval".toList]

/-- A well-formed directive: `name=value` with one of the seven names and a
value without leading or trailing white space. -/
def wellFormedDirective (d : Str) : Prop :=
  ∃ name ∈ directiveNames, ∃ value, d = name ++ '=' :: value ∧ TrimSpace value = value

/-- A text made of white space only (the empty text included). -/
def isBlank (s : Str) : Bool := s.all isSpace

/-- The line `l2` is the line `l` with white space added in front and at the
end, and, for a key-value line, also before and after its first `=`. -/
def wsLineVariant (l l2 : Str) : Prop :=
  (∃ ws0 ws3, isBlank ws0 = true ∧ isBlank ws3 = true ∧ l2 = ws0 ++ l ++ ws3) ∨
  (∃ k rest ws0 ws1 ws2 ws3, isHeaderLine l = false ∧ '=' ∉ k ∧
    isBlank ws0 = true ∧ isBlank ws1 = true ∧ isBlank ws2 = true ∧ isBlank ws3 = true ∧
    l = k ++ '=' :: rest ∧ l2 = ws0 ++ (k ++ ws1 ++ '=' :: (ws2 ++ rest)) ++ ws3)

/-- The lines `ls2` are the lines `ls` with blank lines inserted and white
space added to lines. -/
inductive WsVariant : List Str → List Str → Prop where
  /-- no line -/
  | nil : WsVariant [] []
  /-- a blank line inserted -/
  | blank (ws : Str) (ls ls2 : List Str) :
      isBlank ws = true → WsVariant ls ls2 → WsVariant ls (ws :: ls2)
  /-- white space added to a line -/
  | line (l l2 : Str) (ls ls2 : List Str) :
      wsLineVariant l l2 → WsVariant ls ls2 → WsVariant (l :: ls) (l2 :: ls2)

/-- The document with every newline preceded by a carriage return (CRLF line
endings). -/
def toCRLF (doc : Str) : Str :=
  doc.flatMap (fun c => if c = '\n' then ['\r', '\n'] else [c])

/-- The lines with a carriage return added at the end of each but the last. -/
def crlfLines : List Str → List Str
  | [] => []
  | [l] => [l]
  | l :: l2 :: ls => (l ++ ['\r']) :: crlfLines (l2 :: ls)

/-- The runes `strings.Trim(line, "[]")` removes. -/
def isBracket (c : Char) : Bool := c == '[' || c == ']'

/-! ## The session functions: theorems -/

/-- The value `StartWireGuardWithNetstack` returns, by the stage reached. -/
theorem start_code (env : Collab) (w : World) (cfg : Str) (ex : Int) :
    (StartWireGuardWithNetstack env w cfg ex).1 =
      if cfg = [] then -2
      else if (env.createNetTUN w.calls).isSome then -1
      else if (env.ipcSet (callsBeforeIpcSet w) w.nextDev (convertToIpcFormat cfg)).isSome then -2
      else if (env.up (callsBeforeUp w cfg) w.nextDev).isSome then -3
      else 0 := by
  unfold StartWireGuardWithNetstack
  by_cases hc : cfg = []
  · simp [hc]
  · simp only [hc, if_false]
    cases h1 : env.createNetTUN w.calls with
    | some e => simp
    | none =>
      simp only [World.record, callsBeforeIpcSet, callsBeforeUp, List.append_assoc,
        List.singleton_append, List.cons_append, List.nil_append]
      cases h2 : env.ipcSet (w.calls ++ [Call.CreateNetTUN localAddrs dnsAddrs 1420,
          Call.NewDevice w.nextTun w.nextDev]) w.nextDev (convertToIpcFormat cfg) with
      | some e => simp
      | none =>
        cases h3 : env.up (w.calls ++ [Call.CreateNetTUN localAddrs dnsAddrs 1420,
            Call.NewDevice w.nextTun w.nextDev,
            Call.IpcSet w.nextDev (convertToIpcFormat cfg)]) w.nextDev with
        | some e => simp
        | none => simp

/-- The package state after `StartWireGuardWithNetstack`, by the stage
reached. -/
theorem start_world (env : Collab) (w : World) (cfg : Str) (ex : Int) :
    (StartWireGuardWithNetstack env w cfg ex).2 =
      if cfg = [] then w
      else if (env.createNetTUN w.calls).isSome then
        { w with calls := w.calls ++ [Call.CreateNetTUN localAddrs dnsAddrs 1420] }
      else if (env.ipcSet (callsBeforeIpcSet w) w.nextDev (convertToIpcFormat cfg)).isSome then
        { wgDevice := none, tunDevice := some w.nextTun,
          calls := callsBeforeUp w cfg ++ [Call.Close w.nextDev],
          nextTun := w.nextTun + 1, nextDev := w.nextDev + 1 }
      else if (env.up (callsBeforeUp w cfg) w.nextDev).isSome then
        { wgDevice := none, tunDevice := some w.nextTun,
          calls := w.calls ++ successCalls w cfg ++ [Call.Close w.nextDev],
          nextTun := w.nextTun + 1, nextDev := w.nextDev + 1 }
      else
        { wgDevice := some w.nextDev, tunDevice := some w.nextTun,
          calls := w.calls ++ successCalls w cfg,
          nextTun := w.nextTun + 1, nextDev := w.nextDev + 1 } := by
  unfold StartWireGuardWithNetstack
  by_cases hc : cfg = []
  · simp [hc]
  · simp only [hc, if_false]
    cases h1 : env.createNetTUN w.calls with
    | some e => simp [World.record]
    | none =>
      simp only [World.record, callsBeforeIpcSet, callsBeforeUp, successCalls,
        List.append_assoc, List.singleton_append, List.cons_append, List.nil_append]
      cases h2 : env.ipcSet (w.calls ++ [Call.CreateNetTUN localAddrs dnsAddrs 1420,
          Call.NewDevice w.nextTun w.nextDev]) w.nextDev (convertToIpcFormat cfg) with
      | some e => simp
      | none =>
        cases h3 : env.up (w.calls ++ [Call.CreateNetTUN localAddrs dnsAddrs 1420,
            Call.NewDevice w.nextTun w.nextDev,
            Call.IpcSet w.nextDev (convertToIpcFormat cfg)]) w.nextDev with
        | some e => simp
        | none => simp

/-- The state after a `StartWireGuardWithNetstack` that returns 0. -/
theorem start_ok_world (env : Collab) (w : World) (cfg : Str) (ex : Int)
    (h : (StartWireGuardWithNetstack env w cfg ex).1 = 0) :
    (StartWireGuardWithNetstack env w cfg ex).2 =
      { wgDevice := some w.nextDev, tunDevice := some w.nextTun,
        calls := w.calls ++ successCalls w cfg,
        nextTun := w.nextTun + 1, nextDev := w.nextDev + 1 } := by
  rw [start_code] at h
  rw [start_world]
  split_ifs at h ⊢
  rfl

/-- Counting engine creations over appended calls. -/
theorem created_calls_append (w : World) (l : List Call) :
    World.created { w with calls := w.calls ++ l } =
      w.created + l.countP (fun c => match c with | Call.NewDevice _ _ => true | _ => false) := by
  simp [World.created, List.countP_append]

/-- Counting engine closes over appended calls. -/
theorem closed_calls_append (w : World) (l : List Call) :
    World.closed { w with calls := w.calls ++ l } =
      w.closed + l.countP (fun c => match c with | Call.Close _ => true | _ => false) := by
  simp [World.closed, List.countP_append]

/-- C3 (as stated, refuted): from an active session holding engine 0, a
`StartWireGuardWithNetstack` whose `IpcSet` fails returns a non-zero code and
leaves the engine slot empty, not holding engine 0 any more. -/
theorem start_failure_drops_prior_engine :
    (StartWireGuardWithNetstack badSetCollab activeWorld "x".toList 0).1 ≠ 0 ∧
    activeWorld.wgDevice = some 0 ∧
    (StartWireGuardWithNetstack badSetCollab activeWorld "x".toList 0).2.wgDevice = none ∧
    (StartWireGuardWithNetstack badSetCollab activeWorld "x".toList 0).2.wgDevice
      ≠ activeWorld.wgDevice := by
  decide

/-- C3 (amended): when `StartWireGuardWithNetstack` fails, then if the config
is empty or interface creation failed, both session slots are as before the
call and no engine was created or closed; and if interface creation succeeded
(the failure is in configuration apply or activation), the engine slot is empty
after the call (the session is Absent) whatever it held before, and the engine
created in this attempt has been closed. -/
theorem start_failure_state (env : Collab) (w : World) (cfg : Str) (ex : Int)
    (h : (StartWireGuardWithNetstack env w cfg ex).1 ≠ 0) :
    ((cfg = [] ∨ (env.createNetTUN w.calls).isSome) →
        (StartWireGuardWithNetstack env w cfg ex).2.wgDevice = w.wgDevice ∧
        (StartWireGuardWithNetstack env w cfg ex).2.tunDevice = w.tunDevice ∧
        (StartWireGuardWithNetstack env w cfg ex).2.created = w.created ∧
        (StartWireGuardWithNetstack env w cfg ex).2.closed = w.closed) ∧
    ((cfg ≠ [] ∧ env.createNetTUN w.calls = none) →
        (StartWireGuardWithNetstack env w cfg ex).2.wgDevice = none ∧
        (StartWireGuardWithNetstack env w cfg ex).2.isActive = false ∧
        (StartWireGuardWithNetstack env w cfg ex).2.calls.getLast? =
          some (Call.Close w.nextDev)) := by
  rw [start_code] at h
  rw [start_world]
  refine ⟨?_, ?_⟩
  · rintro (hc | ht)
    · simp [hc]
    · by_cases hc : cfg = []
      · simp [hc]
      · simp [hc, ht, World.created, World.closed, List.countP_append, List.countP_cons]
  · rintro ⟨hc, ht⟩
    simp only [hc, ht, if_false, Option.isSome_none, Bool.false_eq_true] at h ⊢
    split_ifs at h ⊢
    · simp [World.isActive]
    · simp [World.isActive]
    · exact absurd rfl h

/-- Witness for `start_failure_state`: a failing configuration apply on top of
an active session. -/
theorem start_failure_state_witness :
    (StartWireGuardWithNetstack badSetCollab activeWorld "x".toList 0).2.wgDevice = none ∧
    (StartWireGuardWithNetstack badSetCollab activeWorld "x".toList 0).2.calls.getLast? =
      some (Call.Close 1) :=
  let h := start_failure_state badSetCollab activeWorld "x".toList 0 (by decide)
  ⟨(h.2 ⟨by decide, by decide⟩).1, (h.2 ⟨by decide, by decide⟩).2.2⟩

/-- C4 (what the code does): when two `StartWireGuardWithNetstack` calls in
sequence (from any state, an Absent one included) both return 0, the session
slot holds the second
engine, two engines have been created and none has been closed: the engine of
the first call is still open and no longer referenced. -/
theorem start_twice_first_engine_not_closed (env : Collab) (w : World)
    (cfg1 cfg2 : Str) (ex1 ex2 : Int)
    (h1 : (StartWireGuardWithNetstack env w cfg1 ex1).1 = 0)
    (h2 : (StartWireGuardWithNetstack env
            (StartWireGuardWithNetstack env w cfg1 ex1).2 cfg2 ex2).1 = 0) :
    (StartWireGuardWithNetstack env w cfg1 ex1).2.wgDevice = some w.nextDev ∧
    (StartWireGuardWithNetstack env
      (StartWireGuardWithNetstack env w cfg1 ex1).2 cfg2 ex2).2.wgDevice = some (w.nextDev + 1) ∧
    (StartWireGuardWithNetstack env
      (StartWireGuardWithNetstack env w cfg1 ex1).2 cfg2 ex2).2.created = w.created + 2 ∧
    (StartWireGuardWithNetstack env
      (StartWireGuardWithNetstack env w cfg1 ex1).2 cfg2 ex2).2.closed = w.closed ∧
    Call.Close w.nextDev ∉ (StartWireGuardWithNetstack env
      (StartWireGuardWithNetstack env w cfg1 ex1).2 cfg2 ex2).2.callsSince w := by
  have e2 := start_ok_world env _ cfg2 ex2 h2
  have e1 := start_ok_world env w cfg1 ex1 h1
  rw [e2, e1]
  simp [World.created, World.closed, World.callsSince, successCalls, List.countP_append,
    List.countP_cons]

/-- Witness for `start_twice_first_engine_not_closed`: two successful starts
from the initial state leave two engines created and none closed, so the count
of created engines is not the count of closed engines plus one. -/
theorem start_twice_first_engine_not_closed_witness :
    (StartWireGuardWithNetstack okCollab
      (StartWireGuardWithNetstack okCollab World.init "x".toList 0).2 "y".toList 0).2.created = 2 ∧
    (StartWireGuardWithNetstack okCollab
      (StartWireGuardWithNetstack okCollab World.init "x".toList 0).2 "y".toList 0).2.closed = 0 :=
  let h := start_twice_first_engine_not_closed okCollab World.init "x".toList "y".toList 0 0
    (by decide) (by decide)
  ⟨h.2.2.1, h.2.2.2.1⟩

/-- C5 (as stated, refuted): the empty-config stage and the
configuration-apply stage return the same value, -2; the first run makes no
collaborator call, the second reaches `IpcSet`. -/
theorem start_codes_not_distinct :
    (StartWireGuardWithNetstack okCollab World.init [] 0).1 = -2 ∧
    (StartWireGuardWithNetstack okCollab World.init [] 0).2.calls = [] ∧
    (StartWireGuardWithNetstack badSetCollab World.init "x".toList 0).1 = -2 ∧
    Call.IpcSet 0 [] ∈ (StartWireGuardWithNetstack badSetCollab World.init "x".toList 0).2.calls := by
  decide

/-- C5 (amended): `StartWireGuardWithNetstack` returns -2 for an empty config,
-1 when interface creation fails, -2 when configuration apply fails, -3 when
activation fails and 0 otherwise; so it returns 0 or a negative value, and one
of the three values -1, -2, -3 on failure. -/
theorem start_return_codes (env : Collab) (w : World) (cfg : Str) (ex : Int) :
    ((StartWireGuardWithNetstack env w cfg ex).1 =
      if cfg = [] then -2
      else if (env.createNetTUN w.calls).isSome then -1
      else if (env.ipcSet (callsBeforeIpcSet w) w.nextDev (convertToIpcFormat cfg)).isSome then -2
      else if (env.up (callsBeforeUp w cfg) w.nextDev).isSome then -3
      else 0) ∧
    ((StartWireGuardWithNetstack env w cfg ex).1 = 0 ∨
      (StartWireGuardWithNetstack env w cfg ex).1 < 0) ∧
    (StartWireGuardWithNetstack env w cfg ex).1 ∈ ([0, -1, -2, -3] : List Int) := by
  rw [start_code]
  refine ⟨rfl, ?_, ?_⟩ <;> split_ifs <;> simp

/-- C6: for every state and every `isExitNode`, `StartWireGuardWithNetstack`
on the empty string returns -2, a negative value, and returns the package state
it was given: both slots unchanged and no collaborator call recorded. -/
theorem start_empty_config (env : Collab) (w : World) (ex : Int) :
    StartWireGuardWithNetstack env w [] ex = (-2, w) ∧
    (StartWireGuardWithNetstack env w [] ex).1 < 0 ∧
    (StartWireGuardWithNetstack env w [] ex).2.callsSince w = [] ∧
    (StartWireGuardWithNetstack env w [] ex).2.wgDevice = w.wgDevice ∧
    (StartWireGuardWithNetstack env w [] ex).2.tunDevice = w.tunDevice := by
  simp [StartWireGuardWithNetstack, World.callsSince]

/-- C8 (what the code does): for a non-empty config whose interface creation
succeeds and whose configuration apply or activation fails, the engine created
in the attempt is closed exactly once and the engine slot is empty after the
call, but the interface slot `tunDevice` holds the interface created in the
attempt. -/
theorem start_failure_keeps_new_interface (env : Collab) (w : World) (cfg : Str) (ex : Int)
    (hc : cfg ≠ []) (ht : env.createNetTUN w.calls = none)
    (hf : (StartWireGuardWithNetstack env w cfg ex).1 ≠ 0) :
    (StartWireGuardWithNetstack env w cfg ex).2.wgDevice = none ∧
    ((StartWireGuardWithNetstack env w cfg ex).2.callsSince w).count (Call.Close w.nextDev) = 1 ∧
    Call.NewDevice w.nextTun w.nextDev ∈ (StartWireGuardWithNetstack env w cfg ex).2.callsSince w ∧
    (StartWireGuardWithNetstack env w cfg ex).2.tunDevice = some w.nextTun := by
  rw [start_code] at hf
  rw [start_world]
  simp only [hc, ht, if_false, Option.isSome_none, Bool.false_eq_true] at hf ⊢
  split_ifs at hf ⊢
  · simp [World.callsSince, callsBeforeUp, callsBeforeIpcSet, List.count_cons]
  · simp [World.callsSince, successCalls, List.count_cons]
  · exact absurd rfl hf

/-- Witness for `start_failure_keeps_new_interface`: from the initial state, a
start whose `IpcSet` fails leaves interface 0, created in that attempt, in the
interface slot. -/
theorem start_failure_keeps_new_interface_witness :
    (StartWireGuardWithNetstack badSetCollab World.init "x".toList 0).2.wgDevice = none ∧
    (StartWireGuardWithNetstack badSetCollab World.init "x".toList 0).2.tunDevice = some 0 :=
  let h := start_failure_keeps_new_interface badSetCollab World.init "x".toList 0
    (by decide) (by decide) (by decide)
  ⟨h.1, h.2.2.2⟩

/-- C9: `StartWireGuardWithNetstack` returns 0 exactly when the config is
non-empty and interface creation, configuration apply and activation all
succeed; and then the calls it made are, in order, the interface creation, the
engine creation, one `IpcSet` on the new engine with `convertToIpcFormat` of the
config, and one `Up` on it, and the engine slot holds the engine created in
this call, whatever it held before. -/
theorem start_success_iff (env : Collab) (w : World) (cfg : Str) (ex : Int) :
    ((StartWireGuardWithNetstack env w cfg ex).1 = 0 ↔
      (cfg ≠ [] ∧ env.createNetTUN w.calls = none ∧
        env.ipcSet (callsBeforeIpcSet w) w.nextDev (convertToIpcFormat cfg) = none ∧
        env.up (callsBeforeUp w cfg) w.nextDev = none)) ∧
    ((StartWireGuardWithNetstack env w cfg ex).1 = 0 →
      (StartWireGuardWithNetstack env w cfg ex).2.calls =
        w.calls ++ [Call.CreateNetTUN localAddrs dnsAddrs 1420,
                    Call.NewDevice w.nextTun w.nextDev,
                    Call.IpcSet w.nextDev (convertToIpcFormat cfg),
                    Call.Up w.nextDev] ∧
      (StartWireGuardWithNetstack env w cfg ex).2.wgDevice = some w.nextDev ∧
      (StartWireGuardWithNetstack env w cfg ex).2.isActive = true ∧
      (StartWireGuardWithNetstack env w cfg ex).2.tunDevice = some w.nextTun) := by
  refine ⟨?_, ?_⟩
  · rw [start_code]
    constructor
    · intro h
      split_ifs at h with h1 h2 h3 h4
      exact ⟨h1, by simpa using h2, by simpa using h3, by simpa using h4⟩
    · rintro ⟨h1, h2, h3, h4⟩
      simp [h1, h2, h3, h4]
  · intro h
    rw [start_ok_world env w cfg ex h]
    simp [successCalls, World.isActive]

/-- Witness for `start_success_iff`: a successful start on top of an active
session installs the new engine 1. -/
theorem start_success_iff_witness :
    (StartWireGuardWithNetstack okCollab activeWorld exampleDoc 1).2.calls =
        activeWorld.calls ++ [Call.CreateNetTUN localAddrs dnsAddrs 1420,
                    Call.NewDevice 1 1,
                    Call.IpcSet 1 (convertToIpcFormat exampleDoc),
                    Call.Up 1] ∧
    (StartWireGuardWithNetstack okCollab activeWorld exampleDoc 1).2.wgDevice = some 1 :=
  let h := (start_success_iff okCollab activeWorld exampleDoc 1).2
    ((start_success_iff okCollab activeWorld exampleDoc 1).1.2
      ⟨by decide, by decide, rfl, rfl⟩)
  ⟨h.1, h.2.1⟩

/-- C10: `StopWireGuard` from an Absent state records no call and leaves the
state Absent, for any number of repetitions; from an Active state it records
exactly one call, the close of the held engine, and leaves the state Absent;
and for every state a second `StopWireGuard` changes nothing: it returns the
state the first one produced, so it makes no call. -/
theorem stop_idempotent (w : World) :
    (w.wgDevice = none →
      ∀ n : Nat, (StopWireGuard^[n] w).wgDevice = none ∧ (StopWireGuard^[n] w).calls = w.calls) ∧
    (∀ dev, w.wgDevice = some dev →
      (StopWireGuard w).calls = w.calls ++ [Call.Close dev] ∧
      (StopWireGuard w).closed = w.closed + 1 ∧
      (StopWireGuard w).wgDevice = none) ∧
    (StopWireGuard w).wgDevice = none ∧
    (StopWireGuard w).isActive = false ∧
    StopWireGuard (StopWireGuard w) = StopWireGuard w ∧
    (StopWireGuard (StopWireGuard w)).callsSince (StopWireGuard w) = [] := by
  have hstop : ∀ v : World, v.wgDevice = none →
      (StopWireGuard v).wgDevice = none ∧ (StopWireGuard v).calls = v.calls := by
    intro v hv
    simp [StopWireGuard, hv]
  have hnone : ∀ v : World, (StopWireGuard v).wgDevice = none := by
    intro v
    obtain ⟨d, t, c, nt, nd⟩ := v
    cases d <;> simp [StopWireGuard, World.record]
  have hidem : StopWireGuard (StopWireGuard w) = StopWireGuard w := by
    obtain ⟨d, t, c, nt, nd⟩ := w
    cases d <;> simp [StopWireGuard, World.record]
  refine ⟨?_, ?_, hnone w, ?_, hidem, ?_⟩
  · intro hw n
    induction n with
    | zero => exact ⟨hw, rfl⟩
    | succ k ih =>
      rw [Function.iterate_succ_apply']
      obtain ⟨h1, h2⟩ := hstop _ ih.1
      exact ⟨h1, h2.trans ih.2⟩
  · intro dev hw
    simp [StopWireGuard, hw, World.record, World.closed, List.countP_append]
  · simp [World.isActive, hnone w]
  · rw [hidem]
    simp [World.callsSince]

/-- Witness for `stop_idempotent`: stopping the active session closes engine 0
once, and three stops of the initial state make no call. -/
theorem stop_idempotent_witness :
    (StopWireGuard activeWorld).calls = activeWorld.calls ++ [Call.Close 0] ∧
    (StopWireGuard^[3] World.init).calls = [] :=
  ⟨((stop_idempotent activeWorld).2.1 0 (by decide)).1,
   ((stop_idempotent World.init).1 (by decide) 3).2⟩

/-! ## The translator: the loop body against the table -/

/-- The two pieces `strings.SplitN(s, sep, 2)` returns when `sep` occurs. -/
theorem SplitN2_of_contains (sep : Char) (s : Str) (h : Contains s sep = true) :
    SplitN2 sep s =
      [s.takeWhile (fun c => c != sep), (s.dropWhile (fun c => c != sep)).drop 1] := by
  induction s with
  | nil => simp [Contains] at h
  | cons c cs ih =>
    by_cases hc : c = sep
    · simp [SplitN2, hc]
    · have hcs : Contains cs sep = true := by
        simp only [Contains, List.contains_cons] at h ⊢
        have : (sep == c) = false := by simpa using fun h => hc h.symm
        simpa [this] using h
      simp [SplitN2, hc, ih hcs]

/-- The inner loop appends one `allowed_ip=` directive for each non-empty
trimmed piece. -/
theorem appendAllowedIps_eq (acc pieces : List Str) :
    appendAllowedIps acc pieces =
      acc ++ (((pieces.map TrimSpace).filter (fun ip => ip ≠ [])).map
        (fun ip => "allowed_ip=".toList ++ ip)) := by
  induction pieces generalizing acc with
  | nil => simp [appendAllowedIps]
  | cons p ps ih =>
    have hstep : appendAllowedIps acc (p :: ps) =
        appendAllowedIps (if TrimSpace p ≠ [] then acc ++ ["allowed_ip=".toList ++ TrimSpace p]
          else acc) ps := by
      simp [appendAllowedIps]
    rw [hstep, ih]
    by_cases hp : TrimSpace p = []
    · simp [hp]
    · simp [hp]

/-- One loop iteration, in terms of the notions of the specification: a header
line sets the section; any other line appends its directives and, when it is a
`publickey` line of a `peer` section, sets `peerStarted`. -/
theorem loopBody_eq (st : LoopState) (raw : Str) :
    loopBody st raw =
      if isHeaderLine raw then { st with currentSection := headerName raw }
      else
        { ipcLines := st.ipcLines ++ lineDirectives st.currentSection st.peerStarted raw,
          currentSection := st.currentSection,
          peerStarted := st.peerStarted ||
            (st.currentSection == "peer".toList && keyOfLine raw == some "publickey".toList) } := by
  obtain ⟨ls, sec, started⟩ := st
  unfold loopBody
  by_cases he : TrimSpace raw = []
  · simp [he, isHeaderLine, lineDirectives, keyOfLine, HasPrefix, Contains]
  · simp only [he, if_false]
    by_cases hh : isHeaderLine raw = true
    · have hh2 := hh
      unfold isHeaderLine at hh2
      simp only [hh, hh2, if_true, headerName]
    · have hh2 := hh
      unfold isHeaderLine at hh2
      rw [if_neg hh2, if_neg hh]
      by_cases hc : Contains (TrimSpace raw) '=' = true
      · simp only [hc, if_true, SplitN2_of_contains _ _ hc]
        simp only [lineDirectives, hh, if_false, keyOfLine, hc, if_true, valueOfLine,
          appendAllowedIps_eq]
        generalize ToLower (TrimSpace (List.takeWhile (fun c => c != '=') (TrimSpace raw))) = k
        generalize TrimSpace (List.drop 1 (List.dropWhile (fun c => c != '=') (TrimSpace raw))) = v
        by_cases hi : sec = "interface".toList
        · have hnp : (sec == "peer".toList) = false := by rw [hi]; decide
          rw [if_pos hi, hnp]
          unfold tableDirectives
          rw [if_pos hi]
          split_ifs <;> first | contradiction | simp
        · rw [if_neg hi]
          unfold tableDirectives
          rw [if_neg hi]
          by_cases hp : sec = "peer".toList
          · have hpp : (sec == "peer".toList) = true := by rw [hp]; decide
            rw [if_pos hp, if_pos hp, hpp]
            by_cases hk : k = "publickey".toList
            · rw [if_pos hk, if_pos hk]
              have hkk : (some k == some "publickey".toList) = true := by rw [hk]; decide
              rw [hkk]
              cases started <;> simp [replacePeers, publicKeyPrefix]
            · rw [if_neg hk, if_neg hk]
              have hkk : (some k == some "publickey".toList) = false := by
                simpa using hk
              rw [hkk]
              split_ifs <;> first | contradiction | simp [allowedIpDirectives]
          · have hpp : (sec == "peer".toList) = false := by simpa using hp
            rw [if_neg hp, if_neg hp, hpp]
            simp
      · simp [hc, lineDirectives, hh, keyOfLine]

/-! ## The translator: the loop state after a list of lines -/

/-- Running the loop over one more line. -/
theorem runLoop_concat (st : LoopState) (ls : List Str) (l : Str) :
    runLoop st (ls ++ [l]) = loopBody (runLoop st ls) l := by
  simp [runLoop, List.foldl_append]

/-- The section in force after one more line. -/
theorem sectionAfter_concat (ls : List Str) (l : Str) :
    sectionAfter (ls ++ [l]) = if isHeaderLine l then headerName l else sectionAfter ls := by
  unfold sectionAfter
  by_cases h : isHeaderLine l = true
  · simp [List.filter_append, h, List.getLast?_append]
  · simp [List.filter_append, h]

/-- What is left of a string starting with a rune that is not trimmed. -/
theorem dropWhileEnd_cons_of_not (p : Char → Bool) (c : Char) (cs : Str) (h : p c = false) :
    ∃ r, dropWhileEnd p (c :: cs) = c :: r := by
  unfold dropWhileEnd
  cases hd : dropWhileEnd p cs with
  | nil => exact ⟨[], by simp [h]⟩
  | cons r rs => exact ⟨r :: rs, rfl⟩

/-- A header line is not a `publickey` line: its key starts with `[`. -/
theorem keyOfLine_header (raw : Str) (h : isHeaderLine raw = true) :
    (keyOfLine raw == some "publickey".toList) = false := by
  unfold isHeaderLine at h
  have hp : HasPrefix (TrimSpace raw) "[".toList = true :=
    (Bool.and_eq_true_iff.mp h).1
  unfold keyOfLine
  cases ht : TrimSpace raw with
  | nil => simp [ht, HasPrefix] at hp
  | cons c t =>
    have hc : c = '[' := by
      rw [ht] at hp
      have := hp
      simp only [HasPrefix, String.toList, List.isPrefixOf, Bool.and_true, beq_iff_eq] at this
      exact this.symm
    subst hc
    by_cases hcon : Contains ('[' :: t) '=' = true
    · rw [if_pos hcon]
      have h1 : List.takeWhile (fun c => c != '=') ('[' :: t) =
          '[' :: List.takeWhile (fun c => c != '=') t := by
        simp [List.takeWhile]
      rw [h1]
      obtain ⟨r, hr⟩ := dropWhileEnd_cons_of_not isSpace '['
        (List.takeWhile (fun c => c != '=') t) (by decide)
      have h2 : TrimSpace ('[' :: List.takeWhile (fun c => c != '=') t) = '[' :: r := by
        unfold TrimSpace
        have : List.dropWhile isSpace ('[' :: List.takeWhile (fun c => c != '=') t) =
            '[' :: List.takeWhile (fun c => c != '=') t := by
          rw [List.dropWhile_cons]
          simp [show isSpace '[' = false by decide]
        rw [this, hr]
      rw [h2]
      have h3 : ToLower ('[' :: r) = '[' :: ToLower r := by
        simp [ToLower, show toLowerRune '[' = '[' by decide]
      rw [h3]
      simp [String.toList]
    · rw [if_neg hcon]
      rfl

/-- The section variable after the lines `ls` is the section in force. -/
theorem runLoop_section (ls : List Str) :
    (runLoop initState ls).currentSection = sectionAfter ls := by
  induction ls using List.reverseRecOn with
  | nil => rfl
  | append_singleton ls l ih =>
    rw [runLoop_concat, loopBody_eq, sectionAfter_concat]
    by_cases h : isHeaderLine l = true
    · simp [h]
    · simp [h, ih]

/-- Whether line `i` is a `publickey` line of a `peer` section, after one more
line is added at the end. -/
theorem peerPublicKeyAt_concat (ls : List Str) (l : Str) (i : Nat) :
    peerPublicKeyAt (ls ++ [l]) i =
      (peerPublicKeyAt ls i ||
        (i == ls.length && (sectionAfter ls == "peer".toList &&
          keyOfLine l == some "publickey".toList))) := by
  unfold peerPublicKeyAt
  rcases Nat.lt_trichotomy i ls.length with hlt | heq | hgt
  · have h1 : List.take i (ls ++ [l]) = List.take i ls :=
      List.take_append_of_le_length (Nat.le_of_lt hlt)
    have h2 : (ls ++ [l]).getD i [] = ls.getD i [] := List.getD_append _ _ _ _ hlt
    have h3 : (i == ls.length) = false := by simpa using Nat.ne_of_lt hlt
    have h4 : i < ls.length + 1 := Nat.lt_succ_of_lt hlt
    rw [h1, h2, h3]
    simp [hlt, h4]
  · subst heq
    have h1 : List.take ls.length (ls ++ [l]) = ls := by simp
    have h2 : (ls ++ [l]).getD ls.length [] = l := by
      simp [List.getD_eq_getElem?_getD]
    rw [h1, h2]
    simp
  · have h3 : (i == ls.length) = false := by simpa using Nat.ne_of_gt hgt
    have h4 : ¬ i < ls.length + 1 := by omega
    have h5 : ¬ i < ls.length := by omega
    rw [h3]
    simp [h4, h5]

/-- Whether some line is a `publickey` line of a `peer` section, after one more
line is added at the end. -/
theorem hasPeerPublicKey_concat (ls : List Str) (l : Str) :
    hasPeerPublicKey (ls ++ [l]) =
      (hasPeerPublicKey ls ||
        (sectionAfter ls == "peer".toList && keyOfLine l == some "publickey".toList)) := by
  unfold hasPeerPublicKey
  rw [List.length_append, List.length_singleton, List.range_succ, List.any_append]
  congr 1
  · apply Bool.eq_iff_iff.mpr
    simp only [List.any_eq_true, List.mem_range]
    constructor
    · rintro ⟨i, hi, h⟩
      refine ⟨i, hi, ?_⟩
      rw [peerPublicKeyAt_concat] at h
      have h3 : (i == ls.length) = false := by simpa using Nat.ne_of_lt hi
      simpa [h3] using h
    · rintro ⟨i, hi, h⟩
      refine ⟨i, hi, ?_⟩
      rw [peerPublicKeyAt_concat, h]
      rfl
  · simp only [List.any_cons, List.any_nil, Bool.or_false]
    rw [peerPublicKeyAt_concat]
    have h0 : peerPublicKeyAt ls ls.length = false := by
      simp [peerPublicKeyAt]
    simp [h0]

/-- The flag `peerStarted` after the lines `ls` tells whether one of them is a
`publickey` line of a `peer` section. -/
theorem runLoop_peerStarted (ls : List Str) :
    (runLoop initState ls).peerStarted = hasPeerPublicKey ls := by
  induction ls using List.reverseRecOn with
  | nil => rfl
  | append_singleton ls l ih =>
    rw [runLoop_concat, loopBody_eq, hasPeerPublicKey_concat]
    by_cases h : isHeaderLine l = true
    · rw [if_pos h, keyOfLine_header l h]
      simp [ih]
    · simp [h, ih, runLoop_section]

/-- The directives of the lines, after one more line is added at the end. -/
theorem directivesOfLines_concat (ls : List Str) (l : Str) :
    directivesOfLines (ls ++ [l]) =
      directivesOfLines ls ++ lineDirectives (sectionAfter ls) (hasPeerPublicKey ls) l := by
  unfold directivesOfLines
  rw [List.length_append, List.length_singleton, List.range_succ, List.flatMap_append]
  congr 1
  · apply List.flatMap_congr
    intro i hi
    have hlt : i < ls.length := List.mem_range.mp hi
    rw [List.take_append_of_le_length (Nat.le_of_lt hlt), List.getD_append _ _ _ _ hlt]
  · simp [List.getD_eq_getElem?_getD]

/-- The list `ipcLines` after the lines `ls` is the list of their directives,
line by line. -/
theorem runLoop_ipcLines (ls : List Str) :
    (runLoop initState ls).ipcLines = directivesOfLines ls := by
  induction ls using List.reverseRecOn with
  | nil => rfl
  | append_singleton ls l ih =>
    rw [runLoop_concat, loopBody_eq, directivesOfLines_concat]
    by_cases h : isHeaderLine l = true
    · simp [h, ih, lineDirectives]
    · simp [h, ih, runLoop_section, runLoop_peerStarted]

/-! ## The translator: `replace_peers=true` -/

/-- Some line is a `publickey` line of a `peer` section exactly when
`hasPeerPublicKey` says so. -/
theorem hasPeerPublicKey_iff (ls : List Str) :
    hasPeerPublicKey ls = true ↔ ∃ i, peerPublicKeyAt ls i = true := by
  unfold hasPeerPublicKey
  simp only [List.any_eq_true, List.mem_range]
  constructor
  · rintro ⟨i, _, h⟩
    exact ⟨i, h⟩
  · rintro ⟨i, h⟩
    refine ⟨i, ?_, h⟩
    unfold peerPublicKeyAt at h
    simp only [Bool.and_eq_true, decide_eq_true_eq] at h
    exact h.1.1

/-- The directives of a `publickey` line of a `peer` section. -/
theorem lineDirectives_publickey (started : Bool) (raw : Str)
    (hk : keyOfLine raw = some "publickey".toList) :
    lineDirectives "peer".toList started raw =
      (if started then [] else [replacePeers]) ++ [publicKeyPrefix ++ valueOfLine raw] := by
  have hh : isHeaderLine raw = false := by
    cases h : isHeaderLine raw
    · rfl
    · have := keyOfLine_header raw h
      rw [hk] at this
      exact absurd this (by decide)
  unfold lineDirectives
  rw [hh, hk]
  simp only [Bool.false_eq_true, if_false]
  unfold tableDirectives
  rw [if_neg (by decide), if_pos rfl, if_pos rfl]

/-- The directives of any other line are plain. -/
theorem lineDirectives_plain (sec : Str) (started : Bool) (raw : Str)
    (h : (sec == "peer".toList && keyOfLine raw == some "publickey".toList) = false) :
    ∀ d ∈ lineDirectives sec started raw, plainDirective d := by
  intro d hd
  unfold lineDirectives at hd
  split_ifs at hd with hh
  · simp at hd
  · cases hk : keyOfLine raw with
    | none => simp [hk] at hd
    | some k =>
      rw [hk] at hd h
      simp only at hd
      have hne : ¬ (sec = "peer".toList ∧ k = "publickey".toList) := by
        rintro ⟨h1, h2⟩
        rw [h1, h2] at h
        exact absurd h (by decide)
      unfold tableDirectives at hd
      unfold plainDirective replacePeers publicKeyPrefix HasPrefix
      by_cases h1 : sec = "interface".toList
      · rw [if_pos h1] at hd
        split_ifs at hd <;>
          first
          | (simp at hd; done)
          | (simp only [List.mem_singleton] at hd
             subst hd
             simp [String.toList, List.isPrefixOf])
      · rw [if_neg h1] at hd
        by_cases h2 : sec = "peer".toList
        · rw [if_pos h2, if_neg (fun hk2 => hne ⟨h2, hk2⟩)] at hd
          split_ifs at hd <;>
            first
            | (simp at hd; done)
            | (simp only [List.mem_singleton] at hd
               subst hd
               simp [String.toList, List.isPrefixOf])
            | (unfold allowedIpDirectives at hd
               simp only [List.mem_map] at hd
               obtain ⟨ip, _, rfl⟩ := hd
               simp [String.toList, List.isPrefixOf])
        · rw [if_neg h2] at hd
          simp at hd

/-- A `public_key=` directive is not `replace_peers=true`. -/
theorem publicKey_ne_replacePeers (v : Str) : publicKeyPrefix ++ v ≠ replacePeers := by
  simp [publicKeyPrefix, replacePeers, String.toList]

/-- The loop keeps the shape `rpShape`. -/
theorem runLoop_rpShape (ls : List Str) :
    rpShape (runLoop initState ls).ipcLines (runLoop initState ls).peerStarted := by
  induction ls using List.reverseRecOn with
  | nil =>
    refine ⟨fun _ d hd => ?_, fun h => ?_⟩
    · simp [runLoop, initState] at hd
    · simp [runLoop, initState] at h
  | append_singleton ls l ih =>
    rw [runLoop_concat, loopBody_eq]
    by_cases hh : isHeaderLine l = true
    · rw [if_pos hh]
      exact ih
    · rw [if_neg hh]
      simp only
      generalize (runLoop initState ls).ipcLines = ds at ih ⊢
      generalize (runLoop initState ls).peerStarted = started at ih ⊢
      generalize (runLoop initState ls).currentSection = sec at ih ⊢
      obtain ⟨ih0, ih1⟩ := ih
      cases ht : (sec == "peer".toList && keyOfLine l == some "publickey".toList) with
      | false =>
        have hplain := lineDirectives_plain sec started l ht
        rw [Bool.or_false]
        refine ⟨fun hs d hd => ?_, fun hs => ?_⟩
        · rcases List.mem_append.mp hd with h | h
          · exact ih0 hs d h
          · exact hplain d h
        · obtain ⟨pre, v, post, he, hpre, hpost⟩ := ih1 hs
          refine ⟨pre, v, post ++ lineDirectives sec started l, ?_, hpre, ?_⟩
          · rw [he]
            simp
          · intro d hd
            rcases List.mem_append.mp hd with h | h
            · exact hpost d h
            · exact (hplain d h).1
      | true =>
        have hsec : sec = "peer".toList := by
          have := (Bool.and_eq_true_iff.mp ht).1
          simpa using this
        have hkey : keyOfLine l = some "publickey".toList := by
          have := (Bool.and_eq_true_iff.mp ht).2
          simpa using this
        rw [hsec, lineDirectives_publickey started l hkey, Bool.or_true]
        refine ⟨fun hs => absurd hs (by decide), fun _ => ?_⟩
        cases started with
        | false =>
          refine ⟨ds, valueOfLine l, [], ?_, ih0 rfl, fun d hd => by simp at hd⟩
          simp
        | true =>
          obtain ⟨pre, v, post, he, hpre, hpost⟩ := ih1 rfl
          refine ⟨pre, v, post ++ [publicKeyPrefix ++ valueOfLine l], ?_, hpre, ?_⟩
          · rw [he]
            simp
          · intro d hd
            rcases List.mem_append.mp hd with h | h
            · exact hpost d h
            · rw [List.mem_singleton.mp h]
              exact publicKey_ne_replacePeers _

/-- In a list of shape `rpShape`, `replace_peers=true` does not occur after a
`public_key=` directive. -/
theorem rpShape_not_after (ds : List Str) (started : Bool) (h : rpShape ds started)
    (a b : List Str) (d : Str) (hd : ds = a ++ d :: b)
    (hpk : HasPrefix d publicKeyPrefix = true) : replacePeers ∉ b := by
  have hrp : HasPrefix replacePeers publicKeyPrefix = false := by decide
  cases started with
  | false =>
    intro hb
    have := (h.1 rfl replacePeers (by rw [hd]; simp [hb])).1
    exact this rfl
  | true =>
    obtain ⟨pre, v, post, he, hpre, hpost⟩ := h.2 rfl
    rw [he] at hd
    rcases List.append_eq_append_iff.mp hd with ⟨a', ha, hb⟩ | ⟨c', ha, hb⟩
    · -- `a = pre ++ a'`
      cases a' with
      | nil =>
        simp only [List.nil_append, List.cons.injEq] at hb
        rw [← hb.1, hrp] at hpk
        exact absurd hpk (by decide)
      | cons x a'' =>
        simp only [List.cons_append, List.cons.injEq] at hb
        intro hmem
        have hin : replacePeers ∈ (publicKeyPrefix ++ v) :: post := by
          rw [hb.2]
          simp [hmem]
        rcases List.mem_cons.mp hin with h1 | h1
        · exact publicKey_ne_replacePeers v h1.symm
        · exact hpost _ h1 rfl
    · -- `pre = a ++ c'`
      cases c' with
      | nil =>
        simp only [List.nil_append, List.cons.injEq] at hb
        rw [hb.1, hrp] at hpk
        exact absurd hpk (by decide)
      | cons x c'' =>
        simp only [List.cons_append, List.cons.injEq] at hb
        have hmem : d ∈ pre := by
          rw [ha, hb.1]
          simp
        have := (hpre d hmem).2
        rw [this] at hpk
        exact absurd hpk (by decide)

/-! ## The translator: lines that contribute nothing -/

/-- No piece of `strings.Split` contains the separator. -/
theorem Split_no_sep (sep : Char) (s : Str) : ∀ p ∈ Split sep s, sep ∉ p := by
  induction s with
  | nil => simp [Split]
  | cons c cs ih =>
    unfold Split
    by_cases hc : c = sep
    · rw [if_pos hc]
      intro p hp
      rcases List.mem_cons.mp hp with h | h
      · rw [h]
        simp
      · exact ih p h
    · rw [if_neg hc]
      cases hs : Split sep cs with
      | nil =>
        intro p hp
        simp only [List.mem_singleton] at hp
        rw [hp]
        simpa using fun h => hc h.symm
      | cons q qs =>
        rw [hs] at ih
        intro p hp
        simp only [List.mem_cons] at hp
        rcases hp with h | h
        · rw [h]
          have hq := ih q (by simp)
          simp only [List.mem_cons, not_or]
          exact ⟨fun h => hc h.symm, hq⟩
        · exact ih p (by simp [h])

/-- `strings.Split` always returns at least one piece. -/
theorem Split_ne_nil (sep : Char) (s : Str) : Split sep s ≠ [] := by
  cases s with
  | nil => simp [Split]
  | cons c cs =>
    unfold Split
    split_ifs
    · simp
    · cases Split sep cs <;> simp

/-- Splitting a string without the separator gives the string alone. -/
theorem Split_of_not_mem (sep : Char) (s : Str) (h : sep ∉ s) : Split sep s = [s] := by
  induction s with
  | nil => rfl
  | cons c cs ih =>
    simp only [List.mem_cons, not_or] at h
    unfold Split
    rw [if_neg (fun hc => h.1 hc.symm), ih h.2]

/-- Splitting `l ++ sep :: rest` when `l` is without the separator. -/
theorem Split_append_sep (sep : Char) (l rest : Str) (h : sep ∉ l) :
    Split sep (l ++ sep :: rest) = l :: Split sep rest := by
  induction l with
  | nil => simp [Split]
  | cons c cs ih =>
    simp only [List.mem_cons, not_or] at h
    rw [List.cons_append]
    conv_lhs =>
      unfold Split
      rw [if_neg (fun hc => h.1 hc.symm), ih h.2]

/-- Joining at least two pieces. -/
theorem Join_cons_cons (sep : Char) (l l' : Str) (ls : List Str) :
    Join (l :: l' :: ls) [sep] = l ++ sep :: Join (l' :: ls) [sep] := by
  simp [Join, List.intercalate, List.intersperse]

/-- Splitting the join of a non-empty list of separator-free pieces returns
the pieces. -/
theorem Split_Join (sep : Char) (ls : List Str) (hne : ls ≠ [])
    (h : ∀ p ∈ ls, sep ∉ p) : Split sep (Join ls [sep]) = ls := by
  induction ls with
  | nil => exact absurd rfl hne
  | cons l ls ih =>
    cases ls with
    | nil =>
      have : Join [l] [sep] = l := by simp [Join, List.intercalate, List.intersperse]
      rw [this]
      exact Split_of_not_mem sep l (h l (by simp))
    | cons l' ls' =>
      rw [Join_cons_cons, Split_append_sep sep l _ (h l (by simp)),
        ih (by simp) (fun p hp => h p (by simp [hp]))]

/-! ## The translator: the output text and its directives -/

/-- What is left after trimming at the end was there before. -/
theorem mem_dropWhileEnd (p : Char → Bool) (s : Str) (c : Char)
    (h : c ∈ dropWhileEnd p s) : c ∈ s := by
  induction s with
  | nil => simp [dropWhileEnd] at h
  | cons x xs ih =>
    unfold dropWhileEnd at h
    cases hd : dropWhileEnd p xs with
    | nil =>
      rw [hd] at h
      simp only at h
      split_ifs at h
      · simp at h
      · simp only [List.mem_singleton] at h
        simp [h]
    | cons r rs =>
      rw [hd] at h ih
      simp only at h
      rcases List.mem_cons.mp h with h1 | h1
      · simp [h1]
      · exact List.mem_cons_of_mem _ (ih h1)

/-- What is left after `strings.TrimSpace` was there before. -/
theorem mem_TrimSpace (s : Str) (c : Char) (h : c ∈ TrimSpace s) : c ∈ s :=
  (List.dropWhile_sublist isSpace).subset (mem_dropWhileEnd _ _ _ h)

/-- The runes of a piece of `strings.Split` are runes of the string. -/
theorem mem_Split_piece (sep : Char) (s : Str) :
    ∀ p ∈ Split sep s, ∀ c ∈ p, c ∈ s := by
  induction s with
  | nil =>
    intro p hp c hc
    simp only [Split, List.mem_singleton] at hp
    rw [hp] at hc
    exact hc
  | cons x xs ih =>
    intro p hp c hc
    unfold Split at hp
    split_ifs at hp with hx
    · rcases List.mem_cons.mp hp with h | h
      · rw [h] at hc
        simp at hc
      · exact List.mem_cons_of_mem _ (ih p h c hc)
    · cases hs : Split sep xs with
      | nil =>
        rw [hs] at hp
        simp only [List.mem_singleton] at hp
        rw [hp] at hc
        simp only [List.mem_singleton] at hc
        simp [hc]
      | cons q qs =>
        rw [hs] at hp ih
        simp only [List.mem_cons] at hp
        rcases hp with h | h
        · rw [h] at hc
          rcases List.mem_cons.mp hc with h1 | h1
          · simp [h1]
          · exact List.mem_cons_of_mem _ (ih q (by simp) c h1)
        · exact List.mem_cons_of_mem _ (ih p (by simp [h]) c hc)

/-- The runes of the value of a line are runes of the line. -/
theorem mem_valueOfLine (raw : Str) (c : Char) (h : c ∈ valueOfLine raw) : c ∈ raw := by
  unfold valueOfLine at h
  have h1 := mem_TrimSpace _ _ h
  have h2 := List.mem_of_mem_drop h1
  have h3 := (List.dropWhile_sublist _).subset h2
  exact mem_TrimSpace _ _ h3

/-- A directive of the table is `replace_peers=true` or one of the six names
followed by text taken from the value. -/
theorem tableDirectives_mem (sec : Str) (started : Bool) (k v d : Str)
    (h : d ∈ tableDirectives sec started k v) :
    d = replacePeers ∨
      ∃ pfx ∈ directivePrefixes, ∃ x, d = pfx ++ x ∧ ∀ c ∈ x, c ∈ v := by
  unfold tableDirectives at h
  have hv : ∀ pfx ∈ directivePrefixes, d = pfx ++ v →
      d = replacePeers ∨ ∃ pfx ∈ directivePrefixes, ∃ x, d = pfx ++ x ∧ ∀ c ∈ x, c ∈ v :=
    fun pfx hp hd => Or.inr ⟨pfx, hp, v, hd, fun _ hc => hc⟩
  by_cases h1 : sec = "interface".toList
  · rw [if_pos h1] at h
    split_ifs at h
    · exact hv _ (by simp [directivePrefixes]) (List.mem_singleton.mp h)
    · exact hv _ (by simp [directivePrefixes]) (List.mem_singleton.mp h)
    · simp at h
  · rw [if_neg h1] at h
    by_cases h2 : sec = "peer".toList
    · rw [if_pos h2] at h
      by_cases h3 : k = "publickey".toList
      · rw [if_pos h3] at h
        rcases List.mem_append.mp h with h4 | h4
        · left
          cases started
          · simpa using h4
          · simp at h4
        · exact hv _ (by simp [directivePrefixes, publicKeyPrefix])
            (List.mem_singleton.mp h4)
      · rw [if_neg h3] at h
        split_ifs at h
        · unfold allowedIpDirectives at h
          simp only [List.mem_map, List.mem_filter] at h
          obtain ⟨ip, ⟨⟨piece, hpiece, hip⟩, _⟩, hd⟩ := h
          refine Or.inr ⟨_, by simp [directivePrefixes], ip, hd.symm, ?_⟩
          intro c hc
          rw [← hip] at hc
          exact mem_Split_piece ',' v piece hpiece c (mem_TrimSpace _ _ hc)
        · exact hv _ (by simp [directivePrefixes]) (List.mem_singleton.mp h)
        · exact hv _ (by simp [directivePrefixes]) (List.mem_singleton.mp h)
        · simp at h
    · rw [if_neg h2] at h
      simp at h

/-- A directive of a line is `replace_peers=true` or one of the six names
followed by text taken from the line. -/
theorem lineDirectives_mem (sec : Str) (started : Bool) (raw d : Str)
    (h : d ∈ lineDirectives sec started raw) :
    d = replacePeers ∨
      ∃ pfx ∈ directivePrefixes, ∃ x, d = pfx ++ x ∧ ∀ c ∈ x, c ∈ raw := by
  unfold lineDirectives at h
  split_ifs at h
  · simp at h
  · cases hk : keyOfLine raw with
    | none => simp [hk] at h
    | some k =>
      rw [hk] at h
      rcases tableDirectives_mem _ _ _ _ _ h with h1 | ⟨pfx, hp, x, hd, hx⟩
      · exact Or.inl h1
      · exact Or.inr ⟨pfx, hp, x, hd, fun c hc => mem_valueOfLine raw c (hx c hc)⟩

/-- A directive of a line without newline is non-empty and without newline. -/
theorem lineDirectives_no_newline (sec : Str) (started : Bool) (raw d : Str)
    (hraw : '\n' ∉ raw) (h : d ∈ lineDirectives sec started raw) : '\n' ∉ d ∧ d ≠ [] := by
  rcases lineDirectives_mem _ _ _ _ h with h1 | ⟨pfx, hp, x, hd, hx⟩
  · rw [h1]
    decide
  · have hall : ∀ q ∈ directivePrefixes, '\n' ∉ q ∧ q ≠ [] := by decide
    have hpfx : '\n' ∉ pfx ∧ pfx ≠ [] := hall pfx hp
    rw [hd]
    refine ⟨?_, ?_⟩
    · intro hmem
      rcases List.mem_append.mp hmem with h2 | h2
      · exact hpfx.1 h2
      · exact hraw (hx _ h2)
    · intro hnil
      exact hpfx.2 (List.append_eq_nil.mp hnil).1

/-- The directives of lines without newline are non-empty and without
newline. -/
theorem directivesOfLines_no_newline (ls : List Str) (hls : ∀ l ∈ ls, '\n' ∉ l) :
    ∀ d ∈ directivesOfLines ls, '\n' ∉ d ∧ d ≠ [] := by
  intro d hd
  unfold directivesOfLines at hd
  obtain ⟨i, hi, hmem⟩ := List.mem_flatMap.mp hd
  have hlt : i < ls.length := List.mem_range.mp hi
  apply lineDirectives_no_newline _ _ _ _ _ hmem
  rw [List.getD_eq_getElem _ _ hlt]
  exact hls _ (List.getElem_mem hlt)

/-- The join of a list that starts with a non-empty piece is not empty. -/
theorem Join_ne_nil (sep : Char) (d : Str) (ds : List Str) (hd : d ≠ []) :
    Join (d :: ds) [sep] ≠ [] := by
  cases ds with
  | nil =>
    have : Join [d] [sep] = d := by simp [Join, List.intercalate, List.intersperse]
    rw [this]
    exact hd
  | cons d' ds' =>
    rw [Join_cons_cons]
    simp

/-- The directive sequence carried by the text `convertToIpcFormat` returns is
the list `ipcLines` the loop built. -/
theorem outputDirectives_convert (doc : Str) :
    outputDirectives (convertToIpcFormat doc) = ipcLinesOf doc := by
  have hall : ∀ d ∈ ipcLinesOf doc, '\n' ∉ d ∧ d ≠ [] := by
    unfold ipcLinesOf
    rw [runLoop_ipcLines]
    exact directivesOfLines_no_newline _ (Split_no_sep '\n' doc)
  unfold outputDirectives convertToIpcFormat
  cases hds : ipcLinesOf doc with
  | nil => rfl
  | cons d ds =>
    rw [hds] at hall
    have hne : Join (d :: ds) "\n".toList ≠ [] := Join_ne_nil '\n' d ds (hall d (by simp)).2
    rw [if_neg hne]
    exact Split_Join '\n' (d :: ds) (by simp) (fun p hp => (hall p hp).1)

/-- The table has no directive for a pair that is not recognized. -/
theorem tableDirectives_unrecognized (sec key value : Str) (started : Bool)
    (h : recognizedPair sec key = false) : tableDirectives sec started key value = [] := by
  unfold recognizedPair at h
  simp only [Bool.or_eq_false_iff, Bool.and_eq_false_iff, beq_eq_false_iff_ne, ne_eq] at h
  unfold tableDirectives
  obtain ⟨hi, hp⟩ := h
  by_cases h1 : sec = "interface".toList
  · rw [if_pos h1]
    rcases hi with hi | hi
    · exact absurd h1 hi
    · rw [if_neg hi.1, if_neg hi.2]
  · rw [if_neg h1]
    by_cases h2 : sec = "peer".toList
    · rw [if_pos h2]
      rcases hp with hp | hp
      · exact absurd h2 hp
      · rw [if_neg hp.1.1.1, if_neg hp.1.1.2, if_neg hp.1.2, if_neg hp.2]
    · rw [if_neg h2]

/-- An unrecognized line has no directive. -/
theorem lineDirectives_unrecognized (sec : Str) (started : Bool) (raw : Str)
    (hk : ∀ k, keyOfLine raw = some k → recognizedPair sec k = false) :
    lineDirectives sec started raw = [] := by
  unfold lineDirectives
  split_ifs
  · rfl
  · cases hkey : keyOfLine raw with
    | none => rfl
    | some k => exact tableDirectives_unrecognized sec k _ started (hk k hkey)

/-- An unrecognized line leaves the loop state as it is. -/
theorem loopBody_unrecognized (st : LoopState) (raw : Str) (hh : isHeaderLine raw = false)
    (hk : ∀ k, keyOfLine raw = some k → recognizedPair st.currentSection k = false) :
    loopBody st raw = st := by
  rw [loopBody_eq, hh]
  simp only [Bool.false_eq_true, if_false]
  rw [lineDirectives_unrecognized _ _ _ hk]
  have ht : (st.currentSection == "peer".toList &&
      keyOfLine raw == some "publickey".toList) = false := by
    cases h : (st.currentSection == "peer".toList &&
      keyOfLine raw == some "publickey".toList)
    · rfl
    · have h1 : st.currentSection = "peer".toList := by
        simpa using (Bool.and_eq_true_iff.mp h).1
      have h2 : keyOfLine raw = some "publickey".toList := by
        simpa using (Bool.and_eq_true_iff.mp h).2
      have := hk _ h2
      rw [h1] at this
      exact absurd this (by decide)
  rw [ht]
  simp

/-- What `unrecognizedAt` says of line `i`. -/
theorem unrecognizedAt_iff (ls : List Str) (i : Nat) :
    unrecognizedAt ls i = true ↔
      (isHeaderLine (ls.getD i []) = false ∧
        ∀ k, keyOfLine (ls.getD i []) = some k →
          recognizedPair (sectionAfter (ls.take i)) k = false) := by
  unfold unrecognizedAt
  cases hk : keyOfLine (ls.getD i []) with
  | none => simp
  | some k => simp

/-- The empty line leaves the loop state as it is. -/
theorem loopBody_nil (st : LoopState) : loopBody st [] = st := by
  apply loopBody_unrecognized
  · decide
  · intro k hk
    have hnone : keyOfLine [] = none := by decide
    rw [hnone] at hk
    cases hk

/-- Deleting an unrecognized line from a list of lines does not change the
final loop state. -/
theorem runLoop_eraseIdx (ls : List Str) (i : Nat) (hi : i < ls.length)
    (hu : unrecognizedAt ls i = true) :
    runLoop initState (ls.eraseIdx i) = runLoop initState ls := by
  obtain ⟨hh, hk⟩ := (unrecognizedAt_iff ls i).mp hu
  rw [List.getD_eq_getElem _ _ hi] at hh hk
  have hsplit : ls = ls.take i ++ ls[i] :: ls.drop (i + 1) := by
    rw [List.getElem_cons_drop, List.take_append_drop]
  have hstep : loopBody (runLoop initState (ls.take i)) ls[i] = runLoop initState (ls.take i) := by
    apply loopBody_unrecognized _ _ hh
    rw [runLoop_section]
    exact hk
  rw [List.eraseIdx_eq_take_drop_succ]
  conv_rhs => rw [hsplit]
  unfold runLoop at hstep ⊢
  rw [List.foldl_append, List.foldl_append, List.foldl_cons, hstep]

/-- C7: `convertToIpcFormat` is a total function, so it fails on no document;
a line that is not a header and whose (section in force, lower-cased key) pair
is not one of the six recognized pairs -- in particular a line without `=`, a
line before any header, and a line under a section other than `interface` and
`peer` -- has no directive, and deleting it from the document leaves the
output unchanged; and the directive list of the document is the list of the
directives of its lines, line by line in source order. -/
theorem unrecognized_lines_dropped (doc : Str) :
    (∀ i, i < (Split '\n' doc).length → unrecognizedAt (Split '\n' doc) i = true →
      lineDirectives (sectionAfter ((Split '\n' doc).take i))
        (hasPeerPublicKey ((Split '\n' doc).take i)) ((Split '\n' doc).getD i []) = [] ∧
      convertToIpcFormat (Join ((Split '\n' doc).eraseIdx i) "\n".toList) =
        convertToIpcFormat doc) ∧
    (∀ i, isHeaderLine ((Split '\n' doc).getD i []) = false →
      (keyOfLine ((Split '\n' doc).getD i []) = none ∨
       (sectionAfter ((Split '\n' doc).take i) ≠ "interface".toList ∧
        sectionAfter ((Split '\n' doc).take i) ≠ "peer".toList)) →
      unrecognizedAt (Split '\n' doc) i = true) ∧
    sectionAfter [] = [] ∧
    ipcLinesOf doc = directivesOfLines (Split '\n' doc) ∧
    convertToIpcFormat doc = Join (directivesOfLines (Split '\n' doc)) "\n".toList ∧
    outputDirectives (convertToIpcFormat doc) = directivesOfLines (Split '\n' doc) := by
  refine ⟨?_, ?_, rfl, runLoop_ipcLines _, ?_,
    (outputDirectives_convert doc).trans (runLoop_ipcLines _)⟩
  · intro i hi hu
    refine ⟨?_, ?_⟩
    · exact lineDirectives_unrecognized _ _ _ ((unrecognizedAt_iff _ i).mp hu).2
    · have hrun := runLoop_eraseIdx (Split '\n' doc) i hi hu
      unfold convertToIpcFormat ipcLinesOf
      by_cases hnil : (Split '\n' doc).eraseIdx i = []
      · have h1 : Split '\n' (Join ((Split '\n' doc).eraseIdx i) "\n".toList) = [[]] := by
          rw [hnil]
          rfl
        rw [h1, ← hrun, hnil]
        have : runLoop initState [[]] = runLoop initState [] := by
          simp [runLoop, loopBody_nil]
        rw [this]
      · have h1 : Split '\n' (Join ((Split '\n' doc).eraseIdx i) "\n".toList) =
            (Split '\n' doc).eraseIdx i := by
          apply Split_Join '\n' _ hnil
          intro p hp
          exact Split_no_sep '\n' doc p (List.mem_of_mem_eraseIdx hp)
        rw [h1, hrun]
  · intro i hh hcase
    rw [unrecognizedAt_iff]
    refine ⟨hh, ?_⟩
    intro k hk
    rcases hcase with hnone | ⟨h1, h2⟩
    · rw [hnone] at hk
      exact absurd hk (by simp)
    · unfold recognizedPair
      have e1 : (sectionAfter ((Split '\n' doc).take i) == "interface".toList) = false := by
        simpa using h1
      have e2 : (sectionAfter ((Split '\n' doc).take i) == "peer".toList) = false := by
        simpa using h2
      rw [e1, e2]
      rfl
  · unfold convertToIpcFormat
    rw [show ipcLinesOf doc = directivesOfLines (Split '\n' doc) from runLoop_ipcLines _]

/-- Witness for `unrecognized_lines_dropped`: line 1 of the document below, an
`Endpoint` line under the unknown section `x`, is unrecognized, and deleting it
does not change the output. -/
theorem unrecognized_lines_dropped_witness :
    unrecognizedAt (Split '\n' "[x]\nEndpoint = 1\n[Peer]\nEndpoint = 2".toList) 1 = true ∧
    convertToIpcFormat (Join ((Split '\n' "[x]\nEndpoint = 1\n[Peer]\nEndpoint = 2".toList).eraseIdx 1)
        "\n".toList) =
      convertToIpcFormat "[x]\nEndpoint = 1\n[Peer]\nEndpoint = 2".toList :=
  ⟨by decide,
   ((unrecognized_lines_dropped "[x]\nEndpoint = 1\n[Peer]\nEndpoint = 2".toList).1 1
      (by decide) (by decide)).2⟩

/-! ## The translator: the ordering of `replace_peers=true` -/

/-- C2: the directive list of every document contains `replace_peers=true` at
most once; when some line is a `publickey` line (key lower-cased) of a `peer`
section it contains it exactly once, immediately before a `public_key=`
directive that no `public_key=` directive precedes; when no line is, it does
not contain it; and in no case does it occur after a `public_key=`
directive.  The directive list is the list of the lines of the text
`convertToIpcFormat` returns. -/
theorem replace_peers_once (doc : Str) :
    (ipcLinesOf doc).count replacePeers ≤ 1 ∧
    ((∃ i, peerPublicKeyAt (Split '\n' doc) i = true) →
      (ipcLinesOf doc).count replacePeers = 1 ∧
      ∃ pre v post,
        ipcLinesOf doc = pre ++ replacePeers :: (publicKeyPrefix ++ v) :: post ∧
        (∀ d ∈ pre, d ≠ replacePeers ∧ HasPrefix d publicKeyPrefix = false) ∧
        (∀ d ∈ post, d ≠ replacePeers)) ∧
    ((¬ ∃ i, peerPublicKeyAt (Split '\n' doc) i = true) →
      (ipcLinesOf doc).count replacePeers = 0) ∧
    (∀ a b d, ipcLinesOf doc = a ++ d :: b → HasPrefix d publicKeyPrefix = true →
      replacePeers ∉ b) ∧
    outputDirectives (convertToIpcFormat doc) = ipcLinesOf doc := by
  have hshape := runLoop_rpShape (Split '\n' doc)
  have hst := runLoop_peerStarted (Split '\n' doc)
  have hzero : ∀ l : List Str, (∀ d ∈ l, d ≠ replacePeers) → l.count replacePeers = 0 := by
    intro l hl
    exact List.count_eq_zero.mpr (fun hm => hl _ hm rfl)
  have hone : (runLoop initState (Split '\n' doc)).peerStarted = true →
      (ipcLinesOf doc).count replacePeers = 1 ∧
      ∃ pre v post,
        ipcLinesOf doc = pre ++ replacePeers :: (publicKeyPrefix ++ v) :: post ∧
        (∀ d ∈ pre, d ≠ replacePeers ∧ HasPrefix d publicKeyPrefix = false) ∧
        (∀ d ∈ post, d ≠ replacePeers) := by
    intro hs
    obtain ⟨pre, v, post, he, hpre, hpost⟩ := hshape.2 hs
    refine ⟨?_, pre, v, post, he, hpre, hpost⟩
    unfold ipcLinesOf
    rw [he, List.count_append, List.count_cons_self, List.count_cons_of_ne
      (publicKey_ne_replacePeers v).symm, hzero pre (fun d hd => (hpre d hd).1),
      hzero post hpost]
  have hnone : (runLoop initState (Split '\n' doc)).peerStarted = false →
      (ipcLinesOf doc).count replacePeers = 0 := by
    intro hs
    exact hzero _ (fun d hd => (hshape.1 hs d hd).1)
  refine ⟨?_, ?_, ?_, ?_, outputDirectives_convert doc⟩
  · cases hs : (runLoop initState (Split '\n' doc)).peerStarted
    · rw [hnone hs]
      exact Nat.zero_le 1
    · rw [(hone hs).1]
  · intro hex
    exact hone (hst.trans ((hasPeerPublicKey_iff _).mpr hex))
  · intro hex
    apply hnone
    rw [hst]
    cases h : hasPeerPublicKey (Split '\n' doc)
    · rfl
    · exact absurd ((hasPeerPublicKey_iff _).mp h) hex
  · intro a b d hd hpk
    exact rpShape_not_after _ _ hshape a b d hd hpk

/-- Witness for `replace_peers_once`: in the example document line 4 is a
`publickey` line of a `peer` section, and the directive list contains
`replace_peers=true` once. -/
theorem replace_peers_once_witness :
    peerPublicKeyAt (Split '\n' exampleDoc) 4 = true ∧
    (ipcLinesOf exampleDoc).count replacePeers = 1 :=
  ⟨by decide, ((replace_peers_once exampleDoc).2.1 ⟨4, by decide⟩).1⟩

/-! ## The translator: the example of the specification -/

set_option maxRecDepth 1000000 in
/-- C1: `convertToIpcFormat` maps the eight-line example document of the
specification to exactly the eight directives the specification lists, joined
by newlines, with no trailing newline. -/
theorem convert_example :
    convertToIpcFormat
      "[Interface]\nPrivateKey = AAA\nListenPort = 51820\n[Peer]\nPublicKey = BBB\nAllowedIPs = 0.0.0.0/0, ::/0\nEndpoint = 1.2.3.4:51820\nPersistentKeepalive = 25".toList
    = "private_key=AAA\nlisten_port=51820\nreplace_peers=true\npublic_key=BBB\nallowed_ip=0.0.0.0/0\nallowed_ip=::/0\nendpoint=1.2.3.4:51820\npersistent_keepalive_interval=25".toList ∧
    (Split '\n' (convertToIpcFormat
      "[Interface]\nPrivateKey = AAA\nListenPort = 51820\n[Peer]\nPublicKey = BBB\nAllowedIPs = 0.0.0.0/0, ::/0\nEndpoint = 1.2.3.4:51820\nPersistentKeepalive = 25".toList)).length = 8 := by
  decide

/-! ## The session functions: status and the exit-node flag -/

/-- C11: `GetWireGuardStatus` returns exactly `stopped`, and the package state
unchanged (so no engine call is made), in the initial state, after any
`StopWireGuard`, in every state whose engine slot is empty, and in particular
after any sequence of start, stop and status calls that ends with the engine
slot empty. -/
theorem status_stopped_when_absent (env : Collab) (w : World) (ops : List Op) :
    GetWireGuardStatus env World.init = ("stopped".toList, World.init) ∧
    GetWireGuardStatus env (StopWireGuard w) = ("stopped".toList, StopWireGuard w) ∧
    (w.wgDevice = none → GetWireGuardStatus env w = ("stopped".toList, w)) ∧
    ((runOps env World.init ops).wgDevice = none →
      GetWireGuardStatus env (runOps env World.init ops) =
        ("stopped".toList, runOps env World.init ops)) := by
  have h : ∀ v : World, v.wgDevice = none → GetWireGuardStatus env v = ("stopped".toList, v) := by
    intro v hv
    unfold GetWireGuardStatus
    rw [hv]
  have hstop : (StopWireGuard w).wgDevice = none := by
    obtain ⟨d, t, c, nt, nd⟩ := w
    cases d <;> rfl
  exact ⟨h _ rfl, h _ hstop, h w, h _⟩

/-- Witness for `status_stopped_when_absent`: after a start, a status query and
a stop the engine slot is empty and the status is `stopped`. -/
theorem status_stopped_when_absent_witness :
    (GetWireGuardStatus okCollab
      (runOps okCollab World.init [Op.start "x".toList 0, Op.status, Op.stop])).1 =
      "stopped".toList :=
  congrArg Prod.fst
    ((status_stopped_when_absent okCollab World.init
      [Op.start "x".toList 0, Op.status, Op.stop]).2.2.2 (by decide))

/-- C12: with engine `dev` installed, `GetWireGuardStatus` makes one `IpcGet`
call on `dev` and returns the text of the answer when the query succeeds and
`error: ` followed by the error message when it fails; it is a total function,
so a text is returned in every case; and both session slots are as before, the
engine still installed and no close recorded. -/
theorem status_when_active (env : Collab) (w : World) (dev : Nat)
    (hw : w.wgDevice = some dev) :
    (∀ text, env.ipcGet w.calls dev = .ok text → (GetWireGuardStatus env w).1 = text) ∧
    (∀ msg, env.ipcGet w.calls dev = .error msg →
      (GetWireGuardStatus env w).1 = "error: ".toList ++ msg) ∧
    (GetWireGuardStatus env w).2.wgDevice = some dev ∧
    (GetWireGuardStatus env w).2.tunDevice = w.tunDevice ∧
    (GetWireGuardStatus env w).2.isActive = true ∧
    (GetWireGuardStatus env w).2.calls = w.calls ++ [Call.IpcGet dev] ∧
    (GetWireGuardStatus env w).2.closed = w.closed ∧
    (GetWireGuardStatus env w).2.created = w.created := by
  unfold GetWireGuardStatus
  rw [hw]
  simp only
  generalize env.ipcGet w.calls dev = res
  cases res with
  | error msg =>
    simp [World.record, World.isActive, World.closed, World.created, hw, List.countP_append]
  | ok text =>
    simp [World.record, World.isActive, World.closed, World.created, hw, List.countP_append]

/-- Witness for `status_when_active`: on the active session, a failing query is
reported as `error: closed` and a successful one returns the engine's text. -/
theorem status_when_active_witness :
    (GetWireGuardStatus badGetCollab activeWorld).1 = "error: closed".toList ∧
    (GetWireGuardStatus statusCollab activeWorld).1 = "listen_port=51820\n".toList ∧
    (GetWireGuardStatus badGetCollab activeWorld).2.wgDevice = some 0 :=
  ⟨(status_when_active badGetCollab activeWorld 0 (by decide)).2.1 "closed".toList rfl,
   (status_when_active statusCollab activeWorld 0 (by decide)).1 "listen_port=51820\n".toList rfl,
   (status_when_active badGetCollab activeWorld 0 (by decide)).2.2.1⟩

/-- C18: two runs of `StartWireGuardWithNetstack` that differ only in
`isExitNode` return the same code and the same package state, the record of
collaborator calls with their arguments included. -/
theorem exit_node_flag_inert (env : Collab) (w : World) (cfg : Str) (ex1 ex2 : Int) :
    StartWireGuardWithNetstack env w cfg ex1 = StartWireGuardWithNetstack env w cfg ex2 ∧
    (StartWireGuardWithNetstack env w cfg ex1).1 = (StartWireGuardWithNetstack env w cfg ex2).1 ∧
    (StartWireGuardWithNetstack env w cfg ex1).2.calls =
      (StartWireGuardWithNetstack env w cfg ex2).2.calls ∧
    (StartWireGuardWithNetstack env w cfg ex1).2.wgDevice =
      (StartWireGuardWithNetstack env w cfg ex2).2.wgDevice ∧
    (StartWireGuardWithNetstack env w cfg ex1).2.tunDevice =
      (StartWireGuardWithNetstack env w cfg ex2).2.tunDevice :=
  ⟨rfl, rfl, rfl, rfl, rfl⟩

/-! ## Trimming: general facts -/

/-- Trimming at the end, when one more rune is added at the end. -/
theorem dropWhileEnd_concat (p : Char → Bool) (l : Str) (x : Char) :
    dropWhileEnd p (l ++ [x]) = if p x then dropWhileEnd p l else l ++ [x] := by
  induction l with
  | nil =>
    simp [dropWhileEnd]
  | cons c cs ih =>
    rw [List.cons_append]
    conv_lhs => unfold dropWhileEnd
    rw [ih]
    by_cases hx : p x = true
    · rw [if_pos hx, if_pos hx]
      conv_rhs => unfold dropWhileEnd
    · rw [if_neg hx, if_neg hx]
      cases cs <;> rfl

/-- The function `dropWhileEnd` is the library's `List.rdropWhile`. -/
theorem dropWhileEnd_eq_rdropWhile (p : Char → Bool) (s : Str) :
    dropWhileEnd p s = s.rdropWhile p := by
  induction s using List.reverseRecOn with
  | nil => rfl
  | append_singleton l x ih => rw [dropWhileEnd_concat, List.rdropWhile_concat, ih]

/-- Trimming at the end twice is trimming once. -/
theorem dropWhileEnd_idem (p : Char → Bool) (s : Str) :
    dropWhileEnd p (dropWhileEnd p s) = dropWhileEnd p s := by
  simp only [dropWhileEnd_eq_rdropWhile, List.rdropWhile_idempotent]

/-- Trimming at the end keeps a rune that is not trimmed and all before it. -/
theorem dropWhileEnd_append_of_not (p : Char → Bool) (a b : Str) (c : Char)
    (h : p c = false) : dropWhileEnd p (a ++ c :: b) = a ++ c :: dropWhileEnd p b := by
  induction a with
  | nil =>
    rw [List.nil_append, List.nil_append]
    conv_lhs => unfold dropWhileEnd
    cases dropWhileEnd p b <;> simp [h]
  | cons x xs ih =>
    rw [List.cons_append]
    conv_lhs => unfold dropWhileEnd
    rw [ih]
    cases xs <;> rfl

/-- Trimming at the end removes a tail of runes that are all trimmed. -/
theorem dropWhileEnd_append_of_all (p : Char → Bool) (s ws : Str)
    (h : ∀ c ∈ ws, p c = true) : dropWhileEnd p (s ++ ws) = dropWhileEnd p s := by
  induction ws using List.reverseRecOn with
  | nil => rw [List.append_nil]
  | append_singleton l x ih =>
    rw [← List.append_assoc, dropWhileEnd_concat, if_pos (h x (by simp))]
    exact ih (fun c hc => h c (by simp [hc]))

/-- Trimming at the end a string of runes that are all trimmed leaves nothing. -/
theorem dropWhileEnd_of_all (p : Char → Bool) (ws : Str) (h : ∀ c ∈ ws, p c = true) :
    dropWhileEnd p ws = [] := by
  have := dropWhileEnd_append_of_all p [] ws h
  rw [List.nil_append] at this
  rw [this]
  rfl

/-- Trimming at the front stops at a rune that is not trimmed. -/
theorem dropWhile_append_of_not (p : Char → Bool) (a b : Str) (c : Char)
    (h : p c = false) : List.dropWhile p (a ++ c :: b) = List.dropWhile p a ++ c :: b := by
  induction a with
  | nil => simp [List.dropWhile, h]
  | cons x xs ih =>
    rw [List.cons_append, List.dropWhile_cons, List.dropWhile_cons]
    by_cases hx : p x = true
    · rw [if_pos hx, if_pos hx, ih]
    · rw [if_neg hx, if_neg hx, List.cons_append]

/-- Trimming at the front and at the end commute. -/
theorem dropWhile_dropWhileEnd_comm (p : Char → Bool) (s : Str) :
    List.dropWhile p (dropWhileEnd p s) = dropWhileEnd p (List.dropWhile p s) := by
  by_cases hall : ∀ c ∈ s, p c = true
  · rw [dropWhileEnd_of_all p s hall, List.dropWhile_eq_nil_iff.mpr hall]
    rfl
  · have hne : List.dropWhile p s ≠ [] := fun h => hall (List.dropWhile_eq_nil_iff.mp h)
    obtain ⟨c, b, hcb⟩ := List.exists_cons_of_ne_nil hne
    have hc : p c = false := by
      have := List.head_dropWhile_not p s hne
      simpa [hcb] using this
    have hs : s = List.takeWhile p s ++ c :: b := by
      rw [← hcb, List.takeWhile_append_dropWhile]
    have htw : ∀ x ∈ List.takeWhile p s, p x = true := fun x hx => List.mem_takeWhile_imp hx
    rw [hcb]
    conv_lhs => rw [hs]
    rw [dropWhileEnd_append_of_not p _ b c hc, dropWhile_append_of_not p _ _ c hc,
      List.dropWhile_eq_nil_iff.mpr htw, List.nil_append]
    have := dropWhileEnd_append_of_not p [] b c hc
    simpa using this.symm

/-- `strings.TrimSpace` of a trimmed string is the string. -/
theorem TrimSpace_idem (s : Str) : TrimSpace (TrimSpace s) = TrimSpace s := by
  unfold TrimSpace
  rw [dropWhile_dropWhileEnd_comm, List.dropWhile_idempotent, dropWhileEnd_idem]

/-- `strings.TrimSpace` ignores white space added in front. -/
theorem TrimSpace_append_left (ws s : Str) (h : ∀ c ∈ ws, isSpace c = true) :
    TrimSpace (ws ++ s) = TrimSpace s := by
  unfold TrimSpace
  rw [List.dropWhile_append_of_pos h]

/-- `strings.TrimSpace` ignores white space added at the end. -/
theorem TrimSpace_append_right (s ws : Str) (h : ∀ c ∈ ws, isSpace c = true) :
    TrimSpace (s ++ ws) = TrimSpace s := by
  unfold TrimSpace
  rw [← dropWhile_dropWhileEnd_comm, ← dropWhile_dropWhileEnd_comm,
    dropWhileEnd_append_of_all _ _ _ h]

/-- `strings.TrimSpace` of white space is empty. -/
theorem TrimSpace_of_all (ws : Str) (h : ∀ c ∈ ws, isSpace c = true) : TrimSpace ws = [] := by
  unfold TrimSpace
  rw [List.dropWhile_eq_nil_iff.mpr h]
  rfl

/-- `strings.TrimSpace` leaves a string without white space as it is. -/
theorem TrimSpace_of_none (s : Str) (h : ∀ c ∈ s, isSpace c = false) : TrimSpace s = s := by
  unfold TrimSpace
  have h1 : List.dropWhile isSpace s = s := by
    cases s with
    | nil => rfl
    | cons c cs => simp [List.dropWhile_cons, h c (by simp)]
  rw [h1, dropWhileEnd_eq_rdropWhile]
  apply List.rdropWhile_eq_self_iff.mpr
  intro hl
  rw [h _ (List.getLast_mem hl)]
  simp

/-- A line `k=rest`, trimmed. -/
theorem TrimSpace_kv (k rest : Str) :
    TrimSpace (k ++ '=' :: rest) =
      List.dropWhile isSpace k ++ '=' :: dropWhileEnd isSpace rest := by
  unfold TrimSpace
  rw [dropWhile_append_of_not isSpace k rest '=' (by decide),
    dropWhileEnd_append_of_not isSpace _ rest '=' (by decide)]

/-- The text before the first `=`. -/
theorem takeWhile_ne_sep (a b : Str) (h : '=' ∉ a) :
    List.takeWhile (fun c => c != '=') (a ++ '=' :: b) = a := by
  rw [List.takeWhile_append_of_pos]
  · simp
  · intro c hc
    have hne : c ≠ '=' := fun hceq => h (hceq ▸ hc)
    simpa using hne

/-- The text from the first `=` on. -/
theorem dropWhile_ne_sep (a b : Str) (h : '=' ∉ a) :
    List.dropWhile (fun c => c != '=') (a ++ '=' :: b) = '=' :: b := by
  rw [List.dropWhile_append_of_pos]
  · simp
  · intro c hc
    have hne : c ≠ '=' := fun hceq => h (hceq ▸ hc)
    simpa using hne

/-- The key of a line `k=rest` whose `k` is without `=`. -/
theorem keyOfLine_kv (k rest : Str) (h : '=' ∉ k) :
    keyOfLine (k ++ '=' :: rest) = some (ToLower (TrimSpace k)) := by
  have hk : '=' ∉ List.dropWhile isSpace k :=
    fun hm => h ((List.dropWhile_sublist isSpace).subset hm)
  unfold keyOfLine
  rw [TrimSpace_kv]
  have hc : Contains (List.dropWhile isSpace k ++ '=' :: dropWhileEnd isSpace rest) '=' = true := by
    simp [Contains]
  rw [if_pos hc, takeWhile_ne_sep _ _ hk]
  have : TrimSpace (List.dropWhile isSpace k) = TrimSpace k := by
    unfold TrimSpace
    rw [List.dropWhile_idempotent]
  rw [this]

/-- The value of a line `k=rest` whose `k` is without `=`. -/
theorem valueOfLine_kv (k rest : Str) (h : '=' ∉ k) :
    valueOfLine (k ++ '=' :: rest) = TrimSpace rest := by
  have hk : '=' ∉ List.dropWhile isSpace k :=
    fun hm => h ((List.dropWhile_sublist isSpace).subset hm)
  unfold valueOfLine
  rw [TrimSpace_kv, dropWhile_ne_sep _ _ hk]
  simp only [List.drop_succ_cons, List.drop_zero]
  unfold TrimSpace
  rw [dropWhile_dropWhileEnd_comm, dropWhileEnd_idem]

/-- Every line with `=` is `k=rest` with `k` without `=`. -/
theorem kv_decompose (l : Str) (h : '=' ∈ l) :
    ∃ k rest, l = k ++ '=' :: rest ∧ '=' ∉ k := by
  induction l with
  | nil => simp at h
  | cons c cs ih =>
    by_cases hc : c = '='
    · exact ⟨[], cs, by simp [hc], by simp⟩
    · have hcs : '=' ∈ cs := by
        rcases List.mem_cons.mp h with h1 | h1
        · exact absurd h1.symm hc
        · exact h1
      obtain ⟨k, rest, hl, hk⟩ := ih hcs
      refine ⟨c :: k, rest, by simp [hl], ?_⟩
      simp only [List.mem_cons, not_or]
      exact ⟨fun h => hc h.symm, hk⟩

/-! ## The translator: one more line at the end of a document -/

/-- Splitting at a separator splits the two sides. -/
theorem Split_append (sep : Char) (a b : Str) :
    Split sep (a ++ sep :: b) = Split sep a ++ Split sep b := by
  induction a with
  | nil => simp [Split]
  | cons c cs ih =>
    rw [List.cons_append]
    by_cases hc : c = sep
    · conv_lhs => unfold Split
      conv_rhs => rw [Split]
      rw [if_pos hc, if_pos hc, ih]
      rfl
    · conv_lhs => unfold Split
      conv_rhs => rw [Split]
      rw [if_neg hc, if_neg hc, ih]
      cases hs : Split sep cs with
      | nil => exact absurd hs (Split_ne_nil sep cs)
      | cons p ps => rfl

/-- The directive list of a document with one more line: the directives of the
document, then those of the line, read in the section in force at the end of
the document. -/
theorem ipcLinesOf_append_line (d raw : Str) (hnl : '\n' ∉ raw) :
    ipcLinesOf (d ++ '\n' :: raw) =
      ipcLinesOf d ++
        lineDirectives (sectionAfter (Split '\n' d)) (hasPeerPublicKey (Split '\n' d)) raw := by
  unfold ipcLinesOf
  rw [Split_append, Split_of_not_mem '\n' raw hnl, runLoop_ipcLines, runLoop_ipcLines,
    directivesOfLines_concat]

/-- The key of a header line starts with `[`. -/
theorem keyOfLine_header_head (raw key : Str) (h : isHeaderLine raw = true)
    (hk : keyOfLine raw = some key) : key.head? = some '[' := by
  unfold isHeaderLine at h
  have hp : HasPrefix (TrimSpace raw) "[".toList = true :=
    (Bool.and_eq_true_iff.mp h).1
  unfold keyOfLine at hk
  cases ht : TrimSpace raw with
  | nil => simp [ht, HasPrefix] at hp
  | cons c t =>
    have hc : c = '[' := by
      rw [ht] at hp
      have := hp
      simp only [HasPrefix, String.toList, List.isPrefixOf, Bool.and_true, beq_iff_eq] at this
      exact this.symm
    subst hc
    rw [ht] at hk
    split_ifs at hk with hcon
    have h1 : List.takeWhile (fun c => c != '=') ('[' :: t) =
        '[' :: List.takeWhile (fun c => c != '=') t := by
      simp [List.takeWhile]
    rw [h1] at hk
    obtain ⟨r, hr⟩ := dropWhileEnd_cons_of_not isSpace '['
      (List.takeWhile (fun c => c != '=') t) (by decide)
    have h2 : TrimSpace ('[' :: List.takeWhile (fun c => c != '=') t) = '[' :: r := by
      unfold TrimSpace
      have : List.dropWhile isSpace ('[' :: List.takeWhile (fun c => c != '=') t) =
          '[' :: List.takeWhile (fun c => c != '=') t := by
        rw [List.dropWhile_cons]
        simp [show isSpace '[' = false by decide]
      rw [this, hr]
    rw [h2] at hk
    have h3 : ToLower ('[' :: r) = '[' :: ToLower r := by
      simp [ToLower, show toLowerRune '[' = '[' by decide]
    rw [h3] at hk
    injection hk with hk
    rw [← hk]
    rfl

/-- The directives of a line with a key that does not start with `[`: those of
the table for the key and the value of the line. -/
theorem lineDirectives_kv (sec : Str) (started : Bool) (raw key : Str)
    (hk : keyOfLine raw = some key) (hhead : key.head? ≠ some '[') :
    lineDirectives sec started raw = tableDirectives sec started key (valueOfLine raw) := by
  have hh : isHeaderLine raw = false := by
    cases h : isHeaderLine raw
    · rfl
    · exact absurd (keyOfLine_header_head raw key h hk) hhead
  unfold lineDirectives
  rw [hh, hk]
  simp

/-- White space is its own lower case. -/
theorem toLowerRune_space (c : Char) (h : isSpace c = true) : toLowerRune c = c := by
  unfold isSpace at h
  unfold toLowerRune
  simp only [Bool.or_eq_true, Bool.and_eq_true, decide_eq_true_eq, beq_iff_eq] at h
  have h1 : ¬ (65 ≤ c.toNat ∧ c.toNat ≤ 90) := by omega
  have h2 : ¬ c.toNat = 0x130 := by omega
  have h3 : ¬ c.toNat = 0x212A := by omega
  rw [if_neg h1, if_neg h2, if_neg h3]

/-- A key whose lower case is without white space and without `=` is itself
without white space and without `=`. -/
theorem key_runes (k lk : Str) (h : ToLower k = lk)
    (hlk : ∀ x ∈ lk, isSpace x = false ∧ x ≠ '=') :
    ∀ c ∈ k, isSpace c = false ∧ c ≠ '=' := by
  intro c hc
  have hmem : toLowerRune c ∈ lk := by
    rw [← h]
    exact List.mem_map_of_mem toLowerRune hc
  refine ⟨?_, ?_⟩
  · cases hs : isSpace c
    · rfl
    · rw [toLowerRune_space c hs] at hmem
      rw [(hlk c hmem).1] at hs
      exact absurd hs (by decide)
  · intro heq
    rw [heq] at hmem
    exact (hlk _ hmem).2 (by decide)

/-- The key and value of a line `k = v`. -/
theorem key_value_of_spaced_line (k v : Str) (hk : ∀ c ∈ k, isSpace c = false ∧ c ≠ '=')
    (hv : TrimSpace v = v) :
    keyOfLine (k ++ ' ' :: '=' :: ' ' :: v) = some (ToLower k) ∧
    valueOfLine (k ++ ' ' :: '=' :: ' ' :: v) = v := by
  have hsplit : k ++ ' ' :: '=' :: ' ' :: v = (k ++ [' ']) ++ '=' :: (' ' :: v) := by simp
  have hne : '=' ∉ k ++ [' '] := by
    intro hm
    rcases List.mem_append.mp hm with h1 | h1
    · exact (hk _ h1).2 rfl
    · simp at h1
  rw [hsplit, keyOfLine_kv _ _ hne, valueOfLine_kv _ _ hne]
  refine ⟨?_, ?_⟩
  · rw [TrimSpace_append_right k [' '] (by decide),
      TrimSpace_of_none k (fun c hc => (hk c hc).1)]
  · have : TrimSpace (' ' :: v) = TrimSpace v :=
      TrimSpace_append_left [' '] v (by decide)
    rw [this, hv]

/-- C13: a key-value line is split at its first `=` only.  For each of the
five recognized keys that give one directive, in any spelling `k` whose lower
case is the key, and every value `v` without surrounding white space and
without newline -- whatever `=` characters it contains --, the line `k = v`
added to a document that ends in the key's section adds the directive
`name=v`, with `v` as written; for `publickey` it is preceded by
`replace_peers=true` when the document has no `publickey` line of a `peer`
section yet. -/
theorem value_kept_after_first_eq (d k v sec lk name : Str)
    (htab : (sec, lk, name) ∈ singleDirectiveTable)
    (hsec : sectionAfter (Split '\n' d) = sec)
    (hk : ToLower k = lk)
    (hv : TrimSpace v = v) (hnl : '\n' ∉ v) :
    ipcLinesOf (d ++ "\n".toList ++ (k ++ " = ".toList ++ v)) =
      ipcLinesOf d ++
        (if lk = "publickey".toList ∧ hasPeerPublicKey (Split '\n' d) = false
          then [replacePeers] else []) ++
        [name ++ "=".toList ++ v] := by
  have hlk : (∀ x ∈ lk, isSpace x = false ∧ x ≠ '=') ∧ lk.head? ≠ some '[' := by
    simp only [singleDirectiveTable, List.mem_cons, Prod.mk.injEq, List.mem_singleton,
      List.not_mem_nil, or_false] at htab
    rcases htab with ⟨_, h, _⟩ | ⟨_, h, _⟩ | ⟨_, h, _⟩ | ⟨_, h, _⟩ | ⟨_, h, _⟩ <;>
      (rw [h]; decide)
  have hkr := key_runes k lk hk hlk.1
  obtain ⟨hkey, hval⟩ := key_value_of_spaced_line k v hkr hv
  have hline : '\n' ∉ k ++ ' ' :: '=' :: ' ' :: v := by
    intro hm
    rcases List.mem_append.mp hm with h1 | h1
    · have := (hkr _ h1).1
      exact absurd this (by decide)
    · simp only [List.mem_cons] at h1
      rcases h1 with h1 | h1 | h1 | h1
      · exact absurd h1 (by decide)
      · exact absurd h1 (by decide)
      · exact absurd h1 (by decide)
      · exact hnl h1
  have hdoc : d ++ "\n".toList ++ (k ++ " = ".toList ++ v) =
      d ++ '\n' :: (k ++ ' ' :: '=' :: ' ' :: v) := by
    simp [String.toList]
  rw [hdoc, ipcLinesOf_append_line _ _ hline, hk] at *
  rw [lineDirectives_kv _ _ _ lk hkey hlk.2, hval, hsec, List.append_assoc]
  congr 1
  simp only [singleDirectiveTable, List.mem_cons, Prod.mk.injEq, List.mem_singleton,
    List.not_mem_nil, or_false] at htab
  unfold tableDirectives
  rcases htab with ⟨h1, h2, h3⟩ | ⟨h1, h2, h3⟩ | ⟨h1, h2, h3⟩ | ⟨h1, h2, h3⟩ | ⟨h1, h2, h3⟩
  · rw [h1, h2, h3, if_pos rfl, if_pos rfl, if_neg (fun h => absurd h.1 (by decide))]
    simp [String.toList]
  · rw [h1, h2, h3, if_pos rfl, if_neg (by decide), if_pos rfl,
      if_neg (fun h => absurd h.1 (by decide))]
    simp [String.toList]
  · rw [h1, h2, h3, if_neg (by decide), if_pos rfl, if_pos rfl]
    cases hasPeerPublicKey (Split '\n' d) <;>
      simp [String.toList, publicKeyPrefix, replacePeers]
  · rw [h1, h2, h3, if_neg (by decide), if_pos rfl, if_neg (by decide), if_neg (by decide),
      if_pos rfl, if_neg (fun h => absurd h.1 (by decide))]
    simp [String.toList]
  · rw [h1, h2, h3, if_neg (by decide), if_pos rfl, if_neg (by decide), if_neg (by decide),
      if_neg (by decide), if_pos rfl, if_neg (fun h => absurd h.1 (by decide))]
    simp [String.toList]

/-- Witness for `value_kept_after_first_eq`: a private key ending in `=`
signs. -/
theorem value_kept_after_first_eq_witness :
    ipcLinesOf ("[Interface]".toList ++ "\n".toList ++
        ("PrivateKey".toList ++ " = ".toList ++ "aGVsbG8=d29ybGQ==".toList)) =
      ipcLinesOf "[Interface]".toList ++
        (if "privatekey".toList = "publickey".toList ∧
            hasPeerPublicKey (Split '\n' "[Interface]".toList) = false
          then [replacePeers] else []) ++
        ["private_key".toList ++ "=".toList ++ "aGVsbG8=d29ybGQ==".toList] :=
  value_kept_after_first_eq "[Interface]".toList "PrivateKey".toList
    "aGVsbG8=d29ybGQ==".toList "interface".toList "privatekey".toList "private_key".toList
    (by decide) (by decide) (by decide) (by decide) (by decide)

/-! ## The translator: `allowedips` lines -/

/-- C14: an `allowedips` line added to a document that ends in a `peer`
section adds, in order, one directive `allowed_ip=addr` for each piece
obtained by splitting the value of the line at commas, trimming each piece and
discarding the empty ones, and nothing else; their number is the number of
pieces that are not empty once trimmed; no address is empty, has leading or
trailing white space or contains a comma; and a value made of commas and white
space only gives no directive. -/
theorem allowed_ip_per_address (d raw : Str) (hnl : '\n' ∉ raw)
    (hsec : sectionAfter (Split '\n' d) = "peer".toList)
    (hkey : keyOfLine raw = some "allowedips".toList) :
    ipcLinesOf (d ++ '\n' :: raw) =
      ipcLinesOf d ++
        (((Split ',' (valueOfLine raw)).map TrimSpace).filter (fun ip => ip ≠ [])).map
          (fun ip => "allowed_ip=".toList ++ ip) ∧
    ((((Split ',' (valueOfLine raw)).map TrimSpace).filter (fun ip => ip ≠ [])).map
          (fun ip => "allowed_ip=".toList ++ ip)).length =
      (Split ',' (valueOfLine raw)).countP (fun piece => TrimSpace piece ≠ []) ∧
    (∀ ip ∈ ((Split ',' (valueOfLine raw)).map TrimSpace).filter (fun ip => ip ≠ []),
      ip ≠ [] ∧ TrimSpace ip = ip ∧ ',' ∉ ip) ∧
    ((∀ c ∈ valueOfLine raw, c = ',' ∨ isSpace c = true) →
      ipcLinesOf (d ++ '\n' :: raw) = ipcLinesOf d) := by
  have hmain : ipcLinesOf (d ++ '\n' :: raw) =
      ipcLinesOf d ++
        (((Split ',' (valueOfLine raw)).map TrimSpace).filter (fun ip => ip ≠ [])).map
          (fun ip => "allowed_ip=".toList ++ ip) := by
    rw [ipcLinesOf_append_line _ _ hnl,
      lineDirectives_kv _ _ _ _ hkey (by decide), hsec]
    unfold tableDirectives
    rw [if_neg (by decide), if_pos rfl, if_neg (by decide), if_pos rfl]
    rfl
  refine ⟨hmain, ?_, ?_, ?_⟩
  · rw [List.length_map, List.filter_map, List.length_map, ← List.countP_eq_length_filter]
    congr 1
  · intro ip hip
    simp only [List.mem_filter, List.mem_map] at hip
    obtain ⟨⟨piece, hpiece, hp⟩, hne⟩ := hip
    refine ⟨by simpa using hne, ?_, ?_⟩
    · rw [← hp, TrimSpace_idem]
    · intro hc
      rw [← hp] at hc
      exact Split_no_sep ',' _ piece hpiece (mem_TrimSpace _ _ hc)
  · intro hall
    rw [hmain]
    have hnil : ((Split ',' (valueOfLine raw)).map TrimSpace).filter (fun ip => ip ≠ []) = [] := by
      rw [List.filter_eq_nil_iff]
      intro ip hip
      simp only [List.mem_map] at hip
      obtain ⟨piece, hpiece, hp⟩ := hip
      have hws : ∀ c ∈ piece, isSpace c = true := by
        intro c hc
        rcases hall c (mem_Split_piece ',' _ piece hpiece c hc) with h | h
        · rw [h] at hc
          exact absurd hc (Split_no_sep ',' _ piece hpiece)
        · exact h
      rw [← hp, TrimSpace_of_all piece hws]
      simp
    rw [hnil]
    simp

/-- Witness for `allowed_ip_per_address`: the line
`AllowedIPs = 10.0.0.0/8, ,fd00::/8 ,` gives two directives. -/
theorem allowed_ip_per_address_witness :
    ipcLinesOf ("[Peer]".toList ++ '\n' :: "AllowedIPs = 10.0.0.0/8, ,fd00::/8 ,".toList) =
      ipcLinesOf "[Peer]".toList ++
        (((Split ',' (valueOfLine "AllowedIPs = 10.0.0.0/8, ,fd00::/8 ,".toList)).map
            TrimSpace).filter (fun ip => ip ≠ [])).map
          (fun ip => "allowed_ip=".toList ++ ip) ∧
    (((Split ',' (valueOfLine "AllowedIPs = 10.0.0.0/8, ,fd00::/8 ,".toList)).map
            TrimSpace).filter (fun ip => ip ≠ [])).map
          (fun ip => "allowed_ip=".toList ++ ip) =
      ["allowed_ip=10.0.0.0/8".toList, "allowed_ip=fd00::/8".toList] :=
  ⟨(allowed_ip_per_address "[Peer]".toList "AllowedIPs = 10.0.0.0/8, ,fd00::/8 ,".toList
      (by decide) (by decide) (by decide)).1, by decide⟩

/-! ## The translator: the form of the output -/

/-- The value of a line is trimmed. -/
theorem valueOfLine_trimmed (raw : Str) : TrimSpace (valueOfLine raw) = valueOfLine raw := by
  unfold valueOfLine
  rw [TrimSpace_idem]

/-- The directives of the table for a trimmed value are well formed. -/
theorem tableDirectives_wellFormed (sec : Str) (started : Bool) (k v d : Str)
    (hv : TrimSpace v = v) (h : d ∈ tableDirectives sec started k v) :
    wellFormedDirective d := by
  unfold tableDirectives at h
  have hwf : ∀ name ∈ directiveNames, ∀ x, TrimSpace x = x → d = name ++ '=' :: x →
      wellFormedDirective d :=
    fun name hn x hx hd => ⟨name, hn, x, hd, hx⟩
  by_cases h1 : sec = "interface".toList
  · rw [if_pos h1] at h
    split_ifs at h
    · exact hwf "private_key".toList (by decide) v hv (by simpa [String.toList] using h)
    · exact hwf "listen_port".toList (by decide) v hv (by simpa [String.toList] using h)
    · simp at h
  · rw [if_neg h1] at h
    by_cases h2 : sec = "peer".toList
    · rw [if_pos h2] at h
      by_cases h3 : k = "publickey".toList
      · rw [if_pos h3] at h
        rcases List.mem_append.mp h with h4 | h4
        · cases started
          · exact hwf "replace_peers".toList (by decide) "true".toList (by decide)
              (by simpa [String.toList, replacePeers] using h4)
          · simp at h4
        · exact hwf "public_key".toList (by decide) v hv
            (by simpa [String.toList, publicKeyPrefix] using h4)
      · rw [if_neg h3] at h
        split_ifs at h
        · unfold allowedIpDirectives at h
          simp only [List.mem_map, List.mem_filter] at h
          obtain ⟨ip, ⟨⟨piece, _, hip⟩, _⟩, hd⟩ := h
          refine hwf "allowed_ip".toList (by decide) ip ?_ (by simpa [String.toList] using hd.symm)
          rw [← hip, TrimSpace_idem]
        · exact hwf "endpoint".toList (by decide) v hv (by simpa [String.toList] using h)
        · exact hwf "persistent_keepalive_interval".toList (by decide) v hv
            (by simpa [String.toList] using h)
        · simp at h
    · rw [if_neg h2] at h
      simp at h

/-- The directives of a line are well formed. -/
theorem lineDirectives_wellFormed (sec : Str) (started : Bool) (raw d : Str)
    (h : d ∈ lineDirectives sec started raw) : wellFormedDirective d := by
  unfold lineDirectives at h
  split_ifs at h
  · simp at h
  · cases hk : keyOfLine raw with
    | none => simp [hk] at h
    | some k =>
      rw [hk] at h
      exact tableDirectives_wellFormed _ _ _ _ _ (valueOfLine_trimmed raw) h

/-- C17: the text `convertToIpcFormat` returns is the join, by single newlines,
of its directives; it is empty exactly when there is none; every directive is
non-empty, without newline, and of the form `name=value` with one of the seven
names and a value without leading or trailing white space; so the text has no
empty line, and neither starts nor ends with a newline. -/
theorem output_well_formed (doc : Str) :
    convertToIpcFormat doc = Join (outputDirectives (convertToIpcFormat doc)) "\n".toList ∧
    (convertToIpcFormat doc = [] ↔ outputDirectives (convertToIpcFormat doc) = []) ∧
    (∀ d ∈ outputDirectives (convertToIpcFormat doc),
      d ≠ [] ∧ '\n' ∉ d ∧
      ∃ name ∈ directiveNames, ∃ value, d = name ++ '=' :: value ∧ TrimSpace value = value) ∧
    (convertToIpcFormat doc ≠ [] → ∀ l ∈ Split '\n' (convertToIpcFormat doc), l ≠ []) ∧
    (convertToIpcFormat doc).head? ≠ some '\n' ∧
    (convertToIpcFormat doc).getLast? ≠ some '\n' := by
  have hout := outputDirectives_convert doc
  have hall : ∀ d ∈ ipcLinesOf doc, d ≠ [] ∧ '\n' ∉ d ∧ wellFormedDirective d := by
    intro d hd
    have h1 : d ∈ directivesOfLines (Split '\n' doc) := by
      rw [← runLoop_ipcLines]
      exact hd
    have h2 := directivesOfLines_no_newline _ (Split_no_sep '\n' doc) d h1
    refine ⟨h2.2, h2.1, ?_⟩
    unfold directivesOfLines at h1
    obtain ⟨i, _, hmem⟩ := List.mem_flatMap.mp h1
    exact lineDirectives_wellFormed _ _ _ _ hmem
  have hlines : convertToIpcFormat doc ≠ [] →
      ∀ l ∈ Split '\n' (convertToIpcFormat doc), l ≠ [] := by
    intro hne l hl
    have : outputDirectives (convertToIpcFormat doc) = Split '\n' (convertToIpcFormat doc) := by
      unfold outputDirectives
      rw [if_neg hne]
    rw [← this, hout] at hl
    exact (hall l hl).1
  refine ⟨?_, ?_, ?_, hlines, ?_, ?_⟩
  · rw [hout]
    rfl
  · constructor
    · intro h
      unfold outputDirectives
      rw [if_pos h]
    · intro h
      rw [hout] at h
      unfold convertToIpcFormat
      rw [h]
      rfl
  · intro d hd
    rw [hout] at hd
    exact hall d hd
  · intro hhead
    cases hc : convertToIpcFormat doc with
    | nil => rw [hc] at hhead; simp at hhead
    | cons c cs =>
      rw [hc] at hhead
      simp only [List.head?_cons, Option.some.injEq] at hhead
      have hne : convertToIpcFormat doc ≠ [] := by rw [hc]; simp
      have hmem : [] ∈ Split '\n' (convertToIpcFormat doc) := by
        rw [hc, hhead]
        simp [Split]
      exact hlines hne [] hmem rfl
  · intro hlast
    have hne : convertToIpcFormat doc ≠ [] := by
      intro h
      rw [h] at hlast
      simp at hlast
    obtain ⟨a, hsplit⟩ : ∃ a, convertToIpcFormat doc = a ++ ['\n'] := by
      have := List.dropLast_append_getLast hne
      refine ⟨(convertToIpcFormat doc).dropLast, ?_⟩
      rw [List.getLast?_eq_getLast _ hne] at hlast
      simp only [Option.some.injEq] at hlast
      rw [← hlast]
      exact this.symm
    have hmem : [] ∈ Split '\n' (convertToIpcFormat doc) := by
      rw [hsplit, Split_append]
      simp [Split]
    exact hlines hne [] hmem rfl

/-- Witness for `output_well_formed`: the translation of the example document
is not empty and has no empty line. -/
theorem output_well_formed_witness :
    convertToIpcFormat exampleDoc ≠ [] ∧
    ∀ l ∈ Split '\n' (convertToIpcFormat exampleDoc), l ≠ [] :=
  ⟨by decide, (output_well_formed exampleDoc).2.2.2.1 (by decide)⟩

/-! ## The translator: letter case -/

/-- `strings.HasPrefix(s, c)` for a one-rune prefix. -/
theorem HasPrefix_single (s : Str) (c : Char) : HasPrefix s [c] = true ↔ s.head? = some c := by
  cases s with
  | nil => simp [HasPrefix, List.isPrefixOf]
  | cons x xs =>
    simp only [HasPrefix, List.isPrefixOf, List.head?_cons, Bool.and_true, beq_iff_eq,
      Option.some.injEq]
    exact eq_comm

/-- `strings.HasSuffix(s, c)` for a one-rune suffix. -/
theorem HasSuffix_single (s : Str) (c : Char) :
    HasSuffix s [c] = true ↔ s.getLast? = some c := by
  unfold HasSuffix List.isSuffixOf
  have := HasPrefix_single s.reverse c
  unfold HasPrefix at this
  rw [List.reverse_singleton, this, List.head?_reverse]

/-- The loop body reads a line through its trimmed text only. -/
theorem loopBody_congr_trim (st : LoopState) (l l2 : Str) (h : TrimSpace l2 = TrimSpace l) :
    loopBody st l2 = loopBody st l := by
  unfold loopBody
  rw [h]

/-- The runes of a blank text are white space. -/
theorem isBlank_iff (ws : Str) : isBlank ws = true ↔ ∀ c ∈ ws, isSpace c = true := by
  unfold isBlank
  exact List.all_eq_true

/-- A blank line leaves the loop state as it is. -/
theorem loopBody_blank (st : LoopState) (ws : Str) (h : isBlank ws = true) :
    loopBody st ws = st := by
  rw [loopBody_congr_trim st [] ws, loopBody_nil]
  rw [TrimSpace_of_all ws ((isBlank_iff ws).mp h)]
  rfl

/-- White space added around a line is trimmed away. -/
theorem TrimSpace_surround (ws0 l ws3 : Str) (h0 : isBlank ws0 = true)
    (h3 : isBlank ws3 = true) : TrimSpace (ws0 ++ l ++ ws3) = TrimSpace l := by
  rw [TrimSpace_append_right _ _ ((isBlank_iff ws3).mp h3),
    TrimSpace_append_left _ _ ((isBlank_iff ws0).mp h0)]

/-- Trimming at the front a text followed by white space. -/
theorem dropWhile_append_blank (k ws : Str) (h : ∀ c ∈ ws, isSpace c = true) :
    List.dropWhile isSpace (k ++ ws) =
      if List.dropWhile isSpace k = [] then [] else List.dropWhile isSpace k ++ ws := by
  rw [List.dropWhile_append]
  cases hk : List.dropWhile isSpace k with
  | nil => simp [List.dropWhile_eq_nil_iff.mpr h]
  | cons c cs => simp

/-- Trimming at the end a text preceded by white space. -/
theorem dropWhileEnd_blank_append (ws r : Str) (h : ∀ c ∈ ws, isSpace c = true) :
    dropWhileEnd isSpace (ws ++ r) =
      if dropWhileEnd isSpace r = [] then [] else ws ++ dropWhileEnd isSpace r := by
  induction r using List.reverseRecOn with
  | nil =>
    rw [List.append_nil, dropWhileEnd_of_all isSpace ws h]
    rfl
  | append_singleton r x ih =>
    rw [← List.append_assoc, dropWhileEnd_concat, dropWhileEnd_concat]
    by_cases hx : isSpace x = true
    · rw [if_pos hx, if_pos hx, ih]
    · rw [if_neg hx, if_neg hx, if_neg (by simp), List.append_assoc]

/-- Whether a key-value line is a header line does not depend on white space
around its first `=`. -/
theorem isHeaderLine_kv_ws (k rest ws1 ws2 : Str) (h1 : isBlank ws1 = true)
    (h2 : isBlank ws2 = true) :
    isHeaderLine ((k ++ ws1) ++ '=' :: (ws2 ++ rest)) = isHeaderLine (k ++ '=' :: rest) := by
  have hw1 := (isBlank_iff ws1).mp h1
  have hw2 := (isBlank_iff ws2).mp h2
  unfold isHeaderLine
  rw [TrimSpace_kv, TrimSpace_kv, dropWhile_append_blank k ws1 hw1,
    dropWhileEnd_blank_append ws2 rest hw2]
  apply Bool.eq_iff_iff.mpr
  simp only [Bool.and_eq_true, String.toList, HasPrefix_single, HasSuffix_single]
  have hhead : ((if List.dropWhile isSpace k = [] then []
        else List.dropWhile isSpace k ++ ws1) ++
        '=' :: (if dropWhileEnd isSpace rest = [] then []
          else ws2 ++ dropWhileEnd isSpace rest)).head? =
      (List.dropWhile isSpace k ++ '=' :: dropWhileEnd isSpace rest).head? := by
    cases List.dropWhile isSpace k with
    | nil => simp
    | cons c cs => simp
  have hlast : ((if List.dropWhile isSpace k = [] then []
        else List.dropWhile isSpace k ++ ws1) ++
        '=' :: (if dropWhileEnd isSpace rest = [] then []
          else ws2 ++ dropWhileEnd isSpace rest)).getLast? =
      (List.dropWhile isSpace k ++ '=' :: dropWhileEnd isSpace rest).getLast? := by
    rw [List.getLast?_append_of_ne_nil _ (by simp), List.getLast?_append_of_ne_nil _ (by simp)]
    cases hr : dropWhileEnd isSpace rest with
    | nil => simp
    | cons c cs =>
      rw [if_neg (by simp)]
      rw [show '=' :: (ws2 ++ c :: cs) = ('=' :: ws2) ++ c :: cs by simp,
        List.getLast?_append_of_ne_nil _ (by simp),
        show '=' :: c :: cs = ['='] ++ c :: cs by simp,
        List.getLast?_append_of_ne_nil _ (by simp)]
  rw [hhead, hlast]

/-- A line and its variant in white space have the same effect on the loop
state. -/
theorem loopBody_wsLineVariant (st : LoopState) (l l2 : Str) (h : wsLineVariant l l2) :
    loopBody st l2 = loopBody st l := by
  rcases h with ⟨ws0, ws3, h0, h3, hl2⟩ |
    ⟨k, rest, ws0, ws1, ws2, ws3, hh, hk, h0, h1, h2, h3, hl, hl2⟩
  · apply loopBody_congr_trim
    rw [hl2, TrimSpace_surround _ _ _ h0 h3]
  · have hw1 := (isBlank_iff ws1).mp h1
    have hw2 := (isBlank_iff ws2).mp h2
    have hmid : loopBody st l2 = loopBody st ((k ++ ws1) ++ '=' :: (ws2 ++ rest)) := by
      apply loopBody_congr_trim
      rw [hl2, TrimSpace_surround _ _ _ h0 h3]
    have hk1 : '=' ∉ k ++ ws1 := by
      intro hm
      rcases List.mem_append.mp hm with hm | hm
      · exact hk hm
      · exact absurd (hw1 _ hm) (by decide)
    have hhead : isHeaderLine ((k ++ ws1) ++ '=' :: (ws2 ++ rest)) = isHeaderLine l := by
      rw [hl]
      exact isHeaderLine_kv_ws k rest ws1 ws2 h1 h2
    rw [hmid, loopBody_eq, loopBody_eq, hhead, hh]
    simp only [Bool.false_eq_true, if_false]
    have hkey : keyOfLine ((k ++ ws1) ++ '=' :: (ws2 ++ rest)) = keyOfLine l := by
      rw [hl, keyOfLine_kv _ _ hk1, keyOfLine_kv _ _ hk, TrimSpace_append_right _ _ hw1]
    have hval : valueOfLine ((k ++ ws1) ++ '=' :: (ws2 ++ rest)) = valueOfLine l := by
      rw [hl, valueOfLine_kv _ _ hk1, valueOfLine_kv _ _ hk, TrimSpace_append_left _ _ hw2]
    unfold lineDirectives
    rw [hhead, hh, hkey, hval]

/-- Lines that are variants of each other in white space give the same loop
state. -/
theorem runLoop_WsVariant (ls ls2 : List Str) (h : WsVariant ls ls2) (st : LoopState) :
    runLoop st ls2 = runLoop st ls := by
  induction h generalizing st with
  | nil => rfl
  | blank ws ls ls2 hws _ ih =>
    have : runLoop st (ws :: ls2) = runLoop (loopBody st ws) ls2 := rfl
    rw [this, loopBody_blank st ws hws]
    exact ih st
  | line l l2 ls ls2 hl _ ih =>
    have h1 : runLoop st (l2 :: ls2) = runLoop (loopBody st l2) ls2 := rfl
    have h2 : runLoop st (l :: ls) = runLoop (loopBody st l) ls := rfl
    rw [h1, h2, loopBody_wsLineVariant st l l2 hl]
    exact ih _

/-- The lines of the document with CRLF line endings. -/
theorem Split_toCRLF (doc : Str) : Split '\n' (toCRLF doc) = crlfLines (Split '\n' doc) := by
  induction doc with
  | nil => rfl
  | cons c cs ih =>
    by_cases hc : c = '\n'
    · have h1 : toCRLF (c :: cs) = '\r' :: '\n' :: toCRLF cs := by
        simp [toCRLF, hc]
      have h2 : Split '\n' ('\r' :: '\n' :: toCRLF cs) = ['\r'] :: Split '\n' (toCRLF cs) := by
        have := Split_append '\n' ['\r'] (toCRLF cs)
        rw [Split_of_not_mem '\n' ['\r'] (by decide)] at this
        exact this
      have h3 : Split '\n' (c :: cs) = [] :: Split '\n' cs := by
        rw [hc]
        simp [Split]
      rw [h1, h2, h3, ih]
      cases hs : Split '\n' cs with
      | nil => exact absurd hs (Split_ne_nil _ _)
      | cons p ps => simp [crlfLines]
    · have h1 : toCRLF (c :: cs) = c :: toCRLF cs := by
        simp [toCRLF, hc]
      rw [h1]
      conv_lhs => unfold Split
      conv_rhs => rw [Split]
      rw [if_neg hc, if_neg hc, ih]
      cases hs : Split '\n' cs with
      | nil => exact absurd hs (Split_ne_nil _ _)
      | cons p ps =>
        cases ps with
        | nil => rfl
        | cons q qs => rfl

/-- Adding carriage returns at line ends is a variant in white space. -/
theorem WsVariant_crlfLines (ls : List Str) : WsVariant ls (crlfLines ls) := by
  have hrefl : ∀ l : Str, wsLineVariant l l :=
    fun l => Or.inl ⟨[], [], rfl, rfl, by simp⟩
  induction ls with
  | nil => exact WsVariant.nil
  | cons l ls ih =>
    cases ls with
    | nil => exact WsVariant.line l l [] [] (hrefl l) WsVariant.nil
    | cons l2 ls2 =>
      exact WsVariant.line l (l ++ ['\r']) _ _
        (Or.inl ⟨[], ['\r'], rfl, by decide, by simp⟩) ih

/-- C16: when the lines of `doc2` are those of `doc` with blank lines (empty or
white space only) inserted anywhere, white space added in front of and at the
end of lines, and white space added before and after the first `=` of
key-value lines, `convertToIpcFormat` returns the same text for both; in
particular the document with CRLF line endings translates as the document with
LF line endings. -/
theorem whitespace_tolerant (doc doc2 : Str) :
    (WsVariant (Split '\n' doc) (Split '\n' doc2) →
      convertToIpcFormat doc2 = convertToIpcFormat doc) ∧
    convertToIpcFormat (toCRLF doc) = convertToIpcFormat doc := by
  have hmain : ∀ a b : Str, WsVariant (Split '\n' a) (Split '\n' b) →
      convertToIpcFormat b = convertToIpcFormat a := by
    intro a b h
    unfold convertToIpcFormat ipcLinesOf
    rw [runLoop_WsVariant _ _ h initState]
  refine ⟨hmain doc doc2, hmain doc (toCRLF doc) ?_⟩
  rw [Split_toCRLF]
  exact WsVariant_crlfLines _

/-- Witness for `whitespace_tolerant`: a document and the same document with
indentation, a blank line, spaces around `=` and a carriage return. -/
theorem whitespace_tolerant_witness :
    convertToIpcFormat "  [Peer]\t\n \nEndpoint = a\r".toList =
      convertToIpcFormat "[Peer]\nEndpoint=a".toList :=
  (whitespace_tolerant "[Peer]\nEndpoint=a".toList "  [Peer]\t\n \nEndpoint = a\r".toList).1
    (WsVariant.line "[Peer]".toList "  [Peer]\t".toList
      ["Endpoint=a".toList] [" ".toList, "Endpoint = a\r".toList]
      (Or.inl ⟨"  ".toList, "\t".toList, by decide, by decide, by decide⟩)
      (WsVariant.blank " ".toList ["Endpoint=a".toList] ["Endpoint = a\r".toList] (by decide)
        (WsVariant.line "Endpoint=a".toList "Endpoint = a\r".toList [] []
          (Or.inr ⟨"Endpoint".toList, "a".toList, [], " ".toList, " ".toList, "\r".toList,
            by decide, by decide, by decide, by decide, by decide, by decide, by decide,
            by decide⟩)
          WsVariant.nil)))

/-! ## The translator: composition at a section boundary -/

/-- Once `replace_peers=true` is emitted, a line gives the directives it gives
otherwise, without `replace_peers=true`. -/
theorem lineDirectives_started (sec : Str) (b : Bool) (raw : Str) :
    lineDirectives sec true raw =
      (lineDirectives sec b raw).filter (fun d => d ≠ replacePeers) := by
  cases ht : (sec == "peer".toList && keyOfLine raw == some "publickey".toList) with
  | true =>
    have hsec : sec = "peer".toList := by
      simpa using (Bool.and_eq_true_iff.mp ht).1
    have hkey : keyOfLine raw = some "publickey".toList := by
      simpa using (Bool.and_eq_true_iff.mp ht).2
    rw [hsec, lineDirectives_publickey true raw hkey, lineDirectives_publickey b raw hkey]
    have hne := publicKey_ne_replacePeers (valueOfLine raw)
    cases b <;> simp [hne]
  | false =>
    have hplain := lineDirectives_plain sec b raw ht
    have hfilter : (lineDirectives sec b raw).filter (fun d => d ≠ replacePeers) =
        lineDirectives sec b raw := by
      rw [List.filter_eq_self]
      intro d hd
      simpa using (hplain d hd).1
    rw [hfilter]
    unfold lineDirectives
    split_ifs
    · rfl
    · cases hk : keyOfLine raw with
      | none => rfl
      | some k =>
        simp only
        have hne : ¬ (sec = "peer".toList ∧ k = "publickey".toList) := by
          rintro ⟨h1, h2⟩
          rw [h1, hk, h2] at ht
          exact absurd ht (by decide)
        unfold tableDirectives
        by_cases h1 : sec = "interface".toList
        · rw [if_pos h1, if_pos h1]
        · rw [if_neg h1, if_neg h1]
          by_cases h2 : sec = "peer".toList
          · rw [if_pos h2, if_pos h2, if_neg (fun hk2 => hne ⟨h2, hk2⟩),
              if_neg (fun hk2 => hne ⟨h2, hk2⟩)]
          · rw [if_neg h2, if_neg h2]

/-- The directives already emitted stay in front: the loop run from a state is
the loop run from the same section and flag with no directive, after the
directives of the state. -/
theorem runLoop_from_state (ds : List Str) (sec : Str) (b : Bool) (ls : List Str) :
    runLoop ⟨ds, sec, b⟩ ls =
      ⟨ds ++ (runLoop ⟨[], sec, b⟩ ls).ipcLines,
       (runLoop ⟨[], sec, b⟩ ls).currentSection,
       (runLoop ⟨[], sec, b⟩ ls).peerStarted⟩ := by
  induction ls generalizing ds sec b with
  | nil => simp [runLoop]
  | cons l ls ih =>
    have h1 : ∀ st : LoopState, runLoop st (l :: ls) = runLoop (loopBody st l) ls :=
      fun _ => rfl
    rw [h1, h1, loopBody_eq, loopBody_eq]
    by_cases hh : isHeaderLine l = true
    · rw [if_pos hh, if_pos hh]
      exact ih ds _ b
    · rw [if_neg hh, if_neg hh]
      simp only [List.nil_append]
      rw [ih (ds ++ lineDirectives sec b l), ih (lineDirectives sec b l)]
      simp

/-- The loop run with the flag `peerStarted` set gives the directives of the
run from the same section with any flag, without `replace_peers=true`. -/
theorem runLoop_started (sec : Str) (b : Bool) (ls : List Str) :
    (runLoop ⟨[], sec, true⟩ ls).ipcLines =
      (runLoop ⟨[], sec, b⟩ ls).ipcLines.filter (fun d => d ≠ replacePeers) := by
  induction ls generalizing sec b with
  | nil => simp [runLoop]
  | cons l ls ih =>
    have h1 : ∀ st : LoopState, runLoop st (l :: ls) = runLoop (loopBody st l) ls :=
      fun _ => rfl
    rw [h1, h1, loopBody_eq, loopBody_eq]
    by_cases hh : isHeaderLine l = true
    · rw [if_pos hh, if_pos hh]
      exact ih _ b
    · rw [if_neg hh, if_neg hh]
      simp only [List.nil_append, Bool.true_or]
      rw [runLoop_from_state (lineDirectives sec true l), runLoop_from_state (lineDirectives sec b l)]
      simp only
      rw [List.filter_append, ← lineDirectives_started sec b l, ← ih]

/-- The directive list contains `replace_peers=true` exactly when the flag
`peerStarted` is set at the end of the loop. -/
theorem replacePeers_mem_iff (ls : List Str) :
    replacePeers ∈ (runLoop initState ls).ipcLines ↔
      (runLoop initState ls).peerStarted = true := by
  have hshape := runLoop_rpShape ls
  constructor
  · intro hmem
    cases hs : (runLoop initState ls).peerStarted
    · exact absurd rfl (hshape.1 hs _ hmem).1
    · rfl
  · intro hs
    obtain ⟨pre, v, post, he, _, _⟩ := hshape.2 hs
    rw [he]
    simp

/-- Removing `replace_peers=true`, which occurs at most once, from the
directive list: by erasing its occurrence or by filtering. -/
theorem erase_eq_filter_replacePeers (ls : List Str) :
    (runLoop initState ls).ipcLines.erase replacePeers =
      (runLoop initState ls).ipcLines.filter (fun d => d ≠ replacePeers) := by
  have hshape := runLoop_rpShape ls
  have hfilter : ∀ l : List Str, (∀ d ∈ l, d ≠ replacePeers) →
      l.filter (fun d => d ≠ replacePeers) = l := by
    intro l hl
    rw [List.filter_eq_self]
    intro d hd
    simpa using hl d hd
  cases hs : (runLoop initState ls).peerStarted
  · have hno : ∀ d ∈ (runLoop initState ls).ipcLines, d ≠ replacePeers :=
      fun d hd => (hshape.1 hs d hd).1
    rw [hfilter _ hno, List.erase_of_not_mem (fun hm => hno _ hm rfl)]
  · obtain ⟨pre, v, post, he, hpre, hpost⟩ := hshape.2 hs
    have hpre2 : ∀ d ∈ pre, d ≠ replacePeers := fun d hd => (hpre d hd).1
    rw [he, List.erase_append_right _ (fun hm => hpre2 _ hm rfl), List.erase_cons_head,
      List.filter_append, hfilter pre hpre2, List.filter_cons_of_neg (by simp),
      List.filter_cons_of_pos (by simpa using publicKey_ne_replacePeers v),
      hfilter post hpost]

/-- C19: for documents `d1` and `d2` such that the first line of `d2` is a
section header, the directive list of `d1`, a newline and `d2` is the
directive list of `d1` followed by that of `d2` when the former has no
`replace_peers=true`, and followed by that of `d2` with its
`replace_peers=true` removed when the former has one; so the directives of
`d1` come first and unchanged, and those of `d2` follow in their order. -/
theorem compositional_at_header (d1 d2 : Str)
    (hh : isHeaderLine ((Split '\n' d2).headD []) = true) :
    (replacePeers ∉ ipcLinesOf d1 →
      ipcLinesOf (d1 ++ "\n".toList ++ d2) = ipcLinesOf d1 ++ ipcLinesOf d2) ∧
    (replacePeers ∈ ipcLinesOf d1 →
      ipcLinesOf (d1 ++ "\n".toList ++ d2) =
        ipcLinesOf d1 ++ (ipcLinesOf d2).erase replacePeers ∧
      ipcLinesOf (d1 ++ "\n".toList ++ d2) =
        ipcLinesOf d1 ++ (ipcLinesOf d2).filter (fun d => d ≠ replacePeers)) := by
  have hdoc : d1 ++ "\n".toList ++ d2 = d1 ++ '\n' :: d2 := by
    simp [String.toList]
  obtain ⟨h, rest, hsplit⟩ : ∃ h rest, Split '\n' d2 = h :: rest :=
    List.exists_cons_of_ne_nil (Split_ne_nil '\n' d2)
  rw [hsplit] at hh
  simp only [List.headD_cons] at hh
  have hrun : ∀ st : LoopState, runLoop st (h :: rest) =
      runLoop { st with currentSection := headerName h } rest := by
    intro st
    have : runLoop st (h :: rest) = runLoop (loopBody st h) rest := rfl
    rw [this, loopBody_eq, if_pos hh]
  have hcat : ipcLinesOf (d1 ++ "\n".toList ++ d2) =
      ipcLinesOf d1 ++
        (runLoop ⟨[], headerName h, (runLoop initState (Split '\n' d1)).peerStarted⟩
          rest).ipcLines := by
    rw [hdoc]
    unfold ipcLinesOf
    rw [Split_append, hsplit]
    unfold runLoop
    rw [List.foldl_append]
    have := hrun (List.foldl loopBody initState (Split '\n' d1))
    unfold runLoop at this
    rw [this]
    have hp := runLoop_from_state (List.foldl loopBody initState (Split '\n' d1)).ipcLines
      (headerName h) (List.foldl loopBody initState (Split '\n' d1)).peerStarted rest
    unfold runLoop at hp
    rw [hp]
  have hd2 : ipcLinesOf d2 = (runLoop ⟨[], headerName h, false⟩ rest).ipcLines := by
    unfold ipcLinesOf
    rw [hsplit, hrun]
    rfl
  have hmem := replacePeers_mem_iff (Split '\n' d1)
  refine ⟨?_, ?_⟩
  · intro hno
    have hs : (runLoop initState (Split '\n' d1)).peerStarted = false := by
      cases hb : (runLoop initState (Split '\n' d1)).peerStarted
      · rfl
      · exact absurd (hmem.mpr hb) hno
    rw [hcat, hs, hd2]
  · intro hyes
    have hs := hmem.mp hyes
    have hfil : ipcLinesOf (d1 ++ "\n".toList ++ d2) =
        ipcLinesOf d1 ++ (ipcLinesOf d2).filter (fun d => d ≠ replacePeers) := by
      rw [hcat, hs, hd2, runLoop_started (headerName h) false rest]
    refine ⟨?_, hfil⟩
    rw [hfil]
    unfold ipcLinesOf
    rw [erase_eq_filter_replacePeers]

/-- Witness for `compositional_at_header`: two documents with one peer each;
the second peer's `replace_peers=true` is not emitted again. -/
theorem compositional_at_header_witness :
    ipcLinesOf ("[Peer]\nPublicKey = A".toList ++ "\n".toList ++ "[Peer]\nPublicKey = B".toList) =
      ipcLinesOf "[Peer]\nPublicKey = A".toList ++
        (ipcLinesOf "[Peer]\nPublicKey = B".toList).erase replacePeers ∧
    ipcLinesOf ("[Interface]\nListenPort = 1".toList ++ "\n".toList ++
        "[Peer]\nPublicKey = B".toList) =
      ipcLinesOf "[Interface]\nListenPort = 1".toList ++
        ipcLinesOf "[Peer]\nPublicKey = B".toList :=
  ⟨((compositional_at_header "[Peer]\nPublicKey = A".toList "[Peer]\nPublicKey = B".toList
      (by decide)).2 (by decide)).1,
   (compositional_at_header "[Interface]\nListenPort = 1".toList
      "[Peer]\nPublicKey = B".toList (by decide)).1 (by decide)⟩

/-! ## The translator: section headers -/

/-- Under a section other than `interface` and `peer`, lines that are not
headers leave the loop state as it is. -/
theorem runLoop_unknown_section (ls : List Str) (st : LoopState)
    (h1 : st.currentSection ≠ "interface".toList) (h2 : st.currentSection ≠ "peer".toList)
    (hls : ∀ l ∈ ls, isHeaderLine l = false) : runLoop st ls = st := by
  induction ls with
  | nil => rfl
  | cons l ls ih =>
    have hstep : runLoop st (l :: ls) = runLoop (loopBody st l) ls := rfl
    have hbody : loopBody st l = st := by
      apply loopBody_unrecognized st l (hls l (by simp))
      intro k _
      unfold recognizedPair
      have e1 : (st.currentSection == "interface".toList) = false := by simpa using h1
      have e2 : (st.currentSection == "peer".toList) = false := by simpa using h2
      rw [e1, e2]
      rfl
    rw [hstep, hbody]
    exact ih (fun l hl => hls l (by simp [hl]))

/-- C20: a line that, trimmed, starts with `[` and ends with `]` is a header,
whatever lies between (an `=` included): the loop body emits nothing for it
and sets the section to the trimmed line with every leading and trailing `[`
and `]` removed, lower-cased, white space inside the brackets kept.  So
`[[Peer]]` sets the section `peer`, under which an `Endpoint` line gives its
directive, and `[ Peer ]` sets the section ` peer ` (with the spaces), under
which lines up to the next header give no directive. -/
theorem header_by_exact_name (st : LoopState) (raw : Str) (ls : List Str) :
    ((TrimSpace raw).head? = some '[' → (TrimSpace raw).getLast? = some ']' →
      loopBody st raw =
        { st with currentSection :=
            ToLower (dropWhileEnd isBracket ((TrimSpace raw).dropWhile isBracket)) }) ∧
    loopBody st "[a=b]".toList = { st with currentSection := "a=b".toList } ∧
    loopBody st "[[Peer]]".toList = { st with currentSection := "peer".toList } ∧
    loopBody st "[ Peer ]".toList = { st with currentSection := " peer ".toList } ∧
    ((∀ l ∈ ls, isHeaderLine l = false) →
      runLoop st ("[ Peer ]".toList :: ls) = { st with currentSection := " peer ".toList } ∧
      (runLoop st ("[ Peer ]".toList :: ls)).ipcLines = st.ipcLines) ∧
    convertToIpcFormat "[[Peer]]\nEndpoint = 1.2.3.4:51820".toList =
      "endpoint=1.2.3.4:51820".toList ∧
    convertToIpcFormat "[ Peer ]\nEndpoint = 1.2.3.4:51820\nPublicKey = BBB".toList = [] := by
  have hgen : ∀ line : Str, (TrimSpace line).head? = some '[' →
      (TrimSpace line).getLast? = some ']' →
      loopBody st line =
        { st with currentSection :=
            ToLower (dropWhileEnd isBracket ((TrimSpace line).dropWhile isBracket)) } := by
    intro line hhead hlast
    have hh : isHeaderLine line = true := by
      unfold isHeaderLine
      rw [Bool.and_eq_true]
      exact ⟨(HasPrefix_single _ '[').mpr hhead, (HasSuffix_single _ ']').mpr hlast⟩
    have hb : (fun c => decide (c ∈ "[]".toList)) = isBracket := by
      funext c
      unfold isBracket
      simp only [String.toList, List.mem_cons, List.not_mem_nil, or_false, Bool.decide_or]
      rfl
    rw [loopBody_eq, if_pos hh]
    unfold headerName Trim
    rw [hb]
  have hpeer : loopBody st "[ Peer ]".toList = { st with currentSection := " peer ".toList } := by
    rw [hgen _ (by decide) (by decide)]
    have : ToLower (dropWhileEnd isBracket
        ((TrimSpace "[ Peer ]".toList).dropWhile isBracket)) = " peer ".toList := by decide
    rw [this]
  refine ⟨hgen raw, ?_, ?_, hpeer, ?_, by decide, by decide⟩
  · rw [hgen _ (by decide) (by decide)]
    have : ToLower (dropWhileEnd isBracket
        ((TrimSpace "[a=b]".toList).dropWhile isBracket)) = "a=b".toList := by decide
    rw [this]
  · rw [hgen _ (by decide) (by decide)]
    have : ToLower (dropWhileEnd isBracket
        ((TrimSpace "[[Peer]]".toList).dropWhile isBracket)) = "peer".toList := by decide
    rw [this]
  · intro hls
    have hstep : runLoop st ("[ Peer ]".toList :: ls) =
        runLoop (loopBody st "[ Peer ]".toList) ls := rfl
    have hrun : runLoop st ("[ Peer ]".toList :: ls) =
        { st with currentSection := " peer ".toList } := by
      rw [hstep, hpeer]
      exact runLoop_unknown_section ls _
        (show " peer ".toList ≠ "interface".toList from by decide)
        (show " peer ".toList ≠ "peer".toList from by decide) hls
    exact ⟨hrun, by rw [hrun]⟩

/-- Witness for `header_by_exact_name`: the line `  [Interface]  ` sets the
section `interface`, and two key-value lines after `[ Peer ]` give nothing. -/
theorem header_by_exact_name_witness :
    loopBody initState "  [Interface]  ".toList =
      { initState with currentSection := ToLower (dropWhileEnd isBracket ((TrimSpace "  [Interface]  ".toList).dropWhile isBracket)) } ∧
    (runLoop initState
      ("[ Peer ]".toList :: ["PublicKey = BBB".toList, "Endpoint = e".toList])).ipcLines = [] :=
  ⟨(header_by_exact_name initState "  [Interface]  ".toList []).1 (by decide) (by decide),
   ((header_by_exact_name initState [] ["PublicKey = BBB".toList, "Endpoint = e".toList]).2.2.2.2.1
      (by decide)).2⟩

end Netstack
